import Mathlib

/-!
# Verification of the loop-supervisor core against its specification

This file shallowly embeds the relevant parts of the repository
(`src/index.ts`, the log-journal module and the GitHub-issue module) in
Lean 4 and settles the frozen claims about them.

Conventions of the embedding:
* TypeScript strings are modelled as `List Char` (abbreviated `Str`), so
  that the character-level operations of the source (`split`, `trim`,
  `slice`, regular-expression tests) become executable Lean functions that
  can be reasoned about by induction.
* File-system state and the system clock are passed explicitly.
* `JSON.parse` / `JSON.stringify` (JavaScript runtime functions, not code
  of this repository) are modelled by a JSON value type together with an
  executable parser and printer.  The model covers the documents the
  repository actually produces and reads: objects with string values,
  top-level strings, integers, booleans and null.  (Arrays, nested
  objects, exponent-form numbers and `\u` escapes do not occur in the
  repository's log lines and are left out of the model; JavaScript's
  leniency about surrounding whitespace is kept.)
-/

set_option maxHeartbeats 1000000
set_option maxRecDepth 100000

/-- TypeScript strings, modelled as lists of characters. -/
abbrev Str := List Char

/-- Turn a Lean string literal into the `Str` model. -/
def str (s : String) : Str := s.data

/-- JavaScript `\s` / `String.prototype.trim` whitespace (the characters
that occur in practice: space, tab, newline, carriage return, vertical
tab, form feed). -/
def wsChar (c : Char) : Bool :=
  c = ' ' || c = '\t' || c = '\n' || c = '\r' || c = '\x0b' || c = '\x0c'

/-- `s.trimStart()` / leading part of `\s*`. -/
def skipWsL (s : Str) : Str := s.dropWhile wsChar

/-- JavaScript `s.trim()`. -/
def jsTrim (s : Str) : Str :=
  ((s.dropWhile wsChar).reverse.dropWhile wsChar).reverse

/-- Remove every whitespace character (used to compare strings "up to
whitespace normalization": any normalization that only rewrites
whitespace leaves this value unchanged). -/
def stripWs (s : Str) : Str := s.filter (fun c => !wsChar c)

/-- Boolean prefix test on character lists. -/
def isPref : Str → Str → Bool
  | [], _ => true
  | _ :: _, [] => false
  | p :: ps, c :: cs => (c = p) && isPref ps cs

/-- Case-insensitive prefix test; the pattern is given in lower case. -/
def ciPref : Str → Str → Bool
  | [], _ => true
  | _ :: _, [] => false
  | p :: ps, c :: cs => (c.toLower = p) && ciPref ps cs

/-- JavaScript `String.prototype.includes` (substring anywhere). -/
def containsSub (s pat : Str) : Bool :=
  match s with
  | [] => isPref pat []
  | _ :: rest => isPref pat s || containsSub rest pat

/-- JavaScript `split('\n')`: the result is always nonempty, the last
element is the (possibly empty) text after the final newline. -/
def splitNl : Str → List Str
  | [] => [[]]
  | c :: rest =>
    if c = '\n' then [] :: splitNl rest
    else
      match splitNl rest with
      | [] => [[c]]
      | p :: ps => (c :: p) :: ps

/-- Inverse of `splitNl`: `join('\n')`. -/
def joinNl : List Str → Str
  | [] => []
  | [l] => l
  | l :: ls => l ++ '\n' :: joinNl ls

theorem splitNl_ne_nil (s : Str) : splitNl s ≠ [] := by
  cases s with
  | nil => simp [splitNl]
  | cons c rest =>
    simp only [splitNl]
    split
    · simp
    · split <;> simp

theorem joinNl_splitNl (s : Str) : joinNl (splitNl s) = s := by
  induction s with
  | nil => simp [splitNl, joinNl]
  | cons c rest ih =>
    simp only [splitNl]
    split
    · rename_i hc
      subst hc
      have h := splitNl_ne_nil rest
      cases hrest : splitNl rest with
      | nil => exact absurd hrest h
      | cons p ps =>
        rw [hrest] at ih
        simp only [joinNl]
        cases ps <;> simp_all [joinNl]
    · have h := splitNl_ne_nil rest
      cases hrest : splitNl rest with
      | nil => exact absurd hrest h
      | cons p ps =>
        rw [hrest] at ih
        cases ps with
        | nil => simp_all [joinNl]
        | cons q qs => simp_all [joinNl]

/-- `splitNl` decomposed into the complete lines (everything before the
last newline) and the trailing partial line. -/
def splitParts : Str → List Str × Str
  | [] => ([], [])
  | c :: rest =>
    if c = '\n' then ([] :: (splitParts rest).1, (splitParts rest).2)
    else
      match splitParts rest with
      | ([], p) => ([], c :: p)
      | (l :: ls, p) => ((c :: l) :: ls, p)

theorem splitParts_cons_nl (rest : Str) :
    splitParts ('\n' :: rest) = ([] :: (splitParts rest).1, (splitParts rest).2) := by
  simp [splitParts]

theorem splitParts_cons_of_nil {c : Char} (hc : c ≠ '\n') {rest : Str} {p : Str}
    (h : splitParts rest = ([], p)) :
    splitParts (c :: rest) = ([], c :: p) := by
  simp [splitParts, if_neg hc, h]

theorem splitParts_cons_of_cons {c : Char} (hc : c ≠ '\n') {rest : Str} {l p : Str}
    {ls : List Str} (h : splitParts rest = (l :: ls, p)) :
    splitParts (c :: rest) = ((c :: l) :: ls, p) := by
  simp [splitParts, if_neg hc, h]

/-- The complete lines of a byte stream. -/
def completeLines (s : Str) : List Str := (splitParts s).1

/-- The trailing partial line of a byte stream. -/
def partialLine (s : Str) : Str := (splitParts s).2

theorem splitNl_eq_parts (s : Str) :
    splitNl s = (splitParts s).1 ++ [(splitParts s).2] := by
  induction s with
  | nil => simp [splitNl, splitParts]
  | cons c rest ih =>
    by_cases hc : c = '\n'
    · subst hc
      rw [show splitNl ('\n' :: rest) = [] :: splitNl rest from by simp [splitNl],
        splitParts_cons_nl, ih]
      simp
    · cases hparts : splitParts rest with
      | mk cl pl =>
        rw [hparts] at ih
        cases cl with
        | nil =>
          rw [splitParts_cons_of_nil hc hparts]
          simp only [List.nil_append] at ih
          simp only [splitNl, if_neg hc, ih]
          simp
        | cons l ls =>
          rw [splitParts_cons_of_cons hc hparts]
          simp only [splitNl, if_neg hc, ih]
          simp

theorem splitNl_dropLast (s : Str) : (splitNl s).dropLast = completeLines s := by
  rw [splitNl_eq_parts]
  simp [completeLines, List.dropLast_concat]

theorem getLastD_concat_any (x : Str) :
    ∀ (l : List Str) (d : Str), (l ++ [x]).getLastD d = x
  | [], _ => by simp
  | a :: as, d => by
    rw [List.cons_append, List.getLastD_cons]
    exact getLastD_concat_any x as a

theorem getLastD_concat_nil (l : List Str) (x : Str) :
    (l ++ [x]).getLastD [] = x := getLastD_concat_any x l []

theorem splitNl_getLastD (s : Str) : (splitNl s).getLastD [] = partialLine s := by
  rw [splitNl_eq_parts, partialLine]
  exact getLastD_concat_nil _ _

theorem splitParts_append (a b : Str) :
    splitParts (a ++ b) =
      ((splitParts a).1 ++ (splitParts (partialLine a ++ b)).1,
        (splitParts (partialLine a ++ b)).2) := by
  induction a with
  | nil => simp [splitParts, partialLine]
  | cons c rest ih =>
    by_cases hc : c = '\n'
    · subst hc
      rw [List.cons_append, splitParts_cons_nl, splitParts_cons_nl, ih]
      have hpl : partialLine ('\n' :: rest) = partialLine rest := by
        simp [partialLine, splitParts_cons_nl]
      rw [hpl]
      simp
    · cases hparts : splitParts rest with
      | mk cl pl =>
        cases cl with
        | nil =>
          have hpl : partialLine (c :: rest) = c :: pl := by
            simp [partialLine, splitParts_cons_of_nil hc hparts]
          rw [List.cons_append, hpl, splitParts_cons_of_nil hc hparts]
          rw [hparts] at ih
          simp only [List.nil_append] at ih ⊢
          rw [show partialLine rest = pl from by simp [partialLine, hparts]] at ih
          cases hp2 : splitParts (pl ++ b) with
          | mk cl2 pl2 =>
            rw [hp2] at ih
            rw [show (c :: pl) ++ b = c :: (pl ++ b) from rfl]
            cases cl2 with
            | nil =>
              rw [splitParts_cons_of_nil hc ih, splitParts_cons_of_nil hc hp2]
            | cons m ms =>
              rw [splitParts_cons_of_cons hc ih, splitParts_cons_of_cons hc hp2]
        | cons l ls =>
          have hpl : partialLine (c :: rest) = pl := by
            simp [partialLine, splitParts_cons_of_cons hc hparts]
          rw [List.cons_append, hpl, splitParts_cons_of_cons hc hparts]
          rw [hparts] at ih
          rw [show partialLine rest = pl from by simp [partialLine, hparts]] at ih
          rw [splitParts_cons_of_cons hc ih]
          simp

theorem completeLines_append (a b : Str) :
    completeLines (a ++ b) = completeLines a ++ completeLines (partialLine a ++ b) := by
  unfold completeLines
  rw [splitParts_append]

theorem partialLine_append (a b : Str) :
    partialLine (a ++ b) = partialLine (partialLine a ++ b) := by
  conv_lhs => rw [partialLine, splitParts_append]
  rfl

/-! ## A model of `JSON.parse` / `JSON.stringify`

The log journal serialises every record with `JSON.stringify` and reads
lines back with `JSON.parse`, casting the parsed value without any shape
check (`JSON.parse(line) as LogEntry`).  We therefore model parsed log
entries simply as JSON values.  The value type covers what the
repository's documents contain: flat objects whose values are strings,
integers, booleans or null, plus the same scalars at top level. -/

/-- Scalar JSON values. -/
inductive JVal where
  | str (s : Str)
  | int (n : Int)
  | tru
  | fls
  | nul
  deriving DecidableEq, Repr

/-- A JSON document as produced/consumed by the log journal. -/
inductive Json where
  | val (v : JVal)
  | obj (members : List (Str × JVal))
  deriving DecidableEq, Repr

/-- JSON whitespace accepted by `JSON.parse` around tokens. -/
def jsonWs (c : Char) : Bool := c = ' ' || c = '\t' || c = '\n' || c = '\r'

/-- Skip JSON whitespace. -/
def skipJWs (s : Str) : Str := s.dropWhile jsonWs

/-- String-escape map used by `JSON.stringify` for the characters that can
occur in log content. -/
def escChar (c : Char) : Str :=
  if c = '"' then ['\\', '"']
  else if c = '\\' then ['\\', '\\']
  else if c = '\n' then ['\\', 'n']
  else if c = '\t' then ['\\', 't']
  else if c = '\r' then ['\\', 'r']
  else [c]

/-- Escape a whole string body. -/
def escStr (s : Str) : Str := s.flatMap escChar

/-- Unescape map for `JSON.parse` (inverse of `escChar`, plus `\/`). -/
def unescChar (c : Char) : Option Char :=
  if c = '"' then some '"'
  else if c = '\\' then some '\\'
  else if c = '/' then some '/'
  else if c = 'n' then some '\n'
  else if c = 't' then some '\t'
  else if c = 'r' then some '\r'
  else none

/-- Parse a JSON string body (the input starts after the opening quote);
returns the decoded body and the rest after the closing quote.  A `"`
closes the string, a `\` escapes the next character, anything else is
taken verbatim. -/
def parseStringBody : Str → Option (Str × Str)
  | [] => none
  | [c] => if c = '"' then some ([], []) else none
  | c :: d :: rest =>
    if c = '"' then some ([], d :: rest)
    else if c = '\\' then
      match unescChar d with
      | some u => (parseStringBody rest).map (fun p => (u :: p.1, p.2))
      | none => none
    else (parseStringBody (d :: rest)).map (fun p => (c :: p.1, p.2))

def isDigitCh (c : Char) : Bool := '0' ≤ c && c ≤ '9'

def digitVal (c : Char) : Nat := c.toNat - 48

def natOfDigits (ds : List Char) : Nat :=
  ds.foldl (fun acc c => acc * 10 + digitVal c) 0

/-- Parse a scalar JSON value at the head of the input. -/
def parseJVal (s : Str) : Option (JVal × Str) :=
  match s with
  | [] => none
  | c :: rest =>
    if c = '"' then (parseStringBody rest).map (fun p => (JVal.str p.1, p.2))
    else if c = '-' then
      let ds := rest.takeWhile isDigitCh
      if ds = [] then none
      else some (JVal.int (-(natOfDigits ds : Int)), rest.dropWhile isDigitCh)
    else if isDigitCh c then
      let ds := s.takeWhile isDigitCh
      some (JVal.int (natOfDigits ds : Int), s.dropWhile isDigitCh)
    else if isPref (str "true") s then some (JVal.tru, s.drop 4)
    else if isPref (str "false") s then some (JVal.fls, s.drop 5)
    else if isPref (str "null") s then some (JVal.nul, s.drop 4)
    else none

/-- Parse the members of a JSON object (input starts after `{`; the
object is known to be nonempty).  The fuel bounds the number of members;
the top-level entry point passes the input length, which always
suffices. -/
def parseMembers : Nat → Str → Option (List (Str × JVal) × Str)
  | 0, _ => none
  | Nat.succ fuel, s =>
    match skipJWs s with
    | [] => none
    | c :: rest =>
      if c = '"' then
        match parseStringBody rest with
        | none => none
        | some (k, r1) =>
          match skipJWs r1 with
          | [] => none
          | d :: r2 =>
            if d = ':' then
              match parseJVal (skipJWs r2) with
              | none => none
              | some (v, r3) =>
                match skipJWs r3 with
                | [] => none
                | e :: r4 =>
                  if e = ',' then
                    match parseMembers fuel r4 with
                    | some (ms, r) => some ((k, v) :: ms, r)
                    | none => none
                  else if e = '}' then some ([(k, v)], r4)
                  else none
            else none
      else none

/-- The model of `JSON.parse` on a whole line: a value is accepted only
if nothing but whitespace follows it. -/
def jsonParse (s : Str) : Option Json :=
  match skipJWs s with
  | [] => none
  | c :: rest =>
    if c = '{' then
      match skipJWs rest with
      | [] => none
      | d :: r2 =>
        if d = '}' then
          if skipJWs r2 = [] then some (Json.obj []) else none
        else
          match parseMembers (rest.length + 1) rest with
          | some (ms, r) => if skipJWs r = [] then some (Json.obj ms) else none
          | none => none
    else
      match parseJVal (c :: rest) with
      | some (v, r) => if skipJWs r = [] then some (Json.val v) else none
      | none => none

/-- `JSON.stringify` of a string. -/
def renderStr (s : Str) : Str := '"' :: escStr s ++ ['"']

/-- `JSON.stringify` of a scalar. -/
def renderJVal : JVal → Str
  | JVal.str s => renderStr s
  | JVal.int n => (toString n).data
  | JVal.tru => str "true"
  | JVal.fls => str "false"
  | JVal.nul => str "null"

def renderMember (m : Str × JVal) : Str := renderStr m.1 ++ ':' :: renderJVal m.2

/-- The comma-separated member list of `JSON.stringify`. -/
def renderMembers : List (Str × JVal) → Str
  | [] => []
  | [m] => renderMember m
  | m :: ms => renderMember m ++ ',' :: renderMembers ms

/-- `JSON.stringify` of an object. -/
def renderObj (ms : List (Str × JVal)) : Str := '{' :: renderMembers ms ++ ['}']

theorem skipJWs_cons_of (c : Char) (h : jsonWs c = false) (t : Str) :
    skipJWs (c :: t) = c :: t := by
  simp [skipJWs, List.dropWhile_cons, h]

theorem skipJWs_quote (t : Str) : skipJWs ('"' :: t) = '"' :: t :=
  skipJWs_cons_of '"' (by decide) t

theorem skipJWs_colon (t : Str) : skipJWs (':' :: t) = ':' :: t :=
  skipJWs_cons_of ':' (by decide) t

theorem skipJWs_comma (t : Str) : skipJWs (',' :: t) = ',' :: t :=
  skipJWs_cons_of ',' (by decide) t

theorem skipJWs_rbrace (t : Str) : skipJWs ('}' :: t) = '}' :: t :=
  skipJWs_cons_of '}' (by decide) t

theorem skipJWs_lbrace (t : Str) : skipJWs ('{' :: t) = '{' :: t :=
  skipJWs_cons_of '{' (by decide) t

theorem parseStringBody_escStr (s rest : Str) :
    parseStringBody (escStr s ++ '"' :: rest) = some (s, rest) := by
  induction s with
  | nil =>
    rw [show escStr [] ++ '"' :: rest = '"' :: rest from by simp [escStr]]
    cases rest with
    | nil => rfl
    | cons d tl => rfl
  | cons c cs ih =>
    have hesc : escStr (c :: cs) ++ '"' :: rest = escChar c ++ (escStr cs ++ '"' :: rest) := by
      simp [escStr]
    rw [hesc]
    by_cases h1 : c = '"'
    · subst h1
      rw [show escChar '"' = ['\\', '"'] from rfl]
      rw [show (['\\', '"'] : Str) ++ (escStr cs ++ '"' :: rest)
          = '\\' :: '"' :: (escStr cs ++ '"' :: rest) from rfl]
      rw [show parseStringBody ('\\' :: '"' :: (escStr cs ++ '"' :: rest))
          = (parseStringBody (escStr cs ++ '"' :: rest)).map (fun p => ('"' :: p.1, p.2)) from rfl]
      rw [ih]
      rfl
    · by_cases h2 : c = '\\'
      · subst h2
        rw [show escChar '\\' = ['\\', '\\'] from rfl]
        rw [show (['\\', '\\'] : Str) ++ (escStr cs ++ '"' :: rest)
            = '\\' :: '\\' :: (escStr cs ++ '"' :: rest) from rfl]
        rw [show parseStringBody ('\\' :: '\\' :: (escStr cs ++ '"' :: rest))
            = (parseStringBody (escStr cs ++ '"' :: rest)).map (fun p => ('\\' :: p.1, p.2)) from rfl]
        rw [ih]
        rfl
      · by_cases h3 : c = '\n'
        · subst h3
          rw [show escChar '\n' = ['\\', 'n'] from rfl]
          rw [show (['\\', 'n'] : Str) ++ (escStr cs ++ '"' :: rest)
              = '\\' :: 'n' :: (escStr cs ++ '"' :: rest) from rfl]
          rw [show parseStringBody ('\\' :: 'n' :: (escStr cs ++ '"' :: rest))
              = (parseStringBody (escStr cs ++ '"' :: rest)).map (fun p => ('\n' :: p.1, p.2)) from rfl]
          rw [ih]
          rfl
        · by_cases h4 : c = '\t'
          · subst h4
            rw [show escChar '\t' = ['\\', 't'] from rfl]
            rw [show (['\\', 't'] : Str) ++ (escStr cs ++ '"' :: rest)
                = '\\' :: 't' :: (escStr cs ++ '"' :: rest) from rfl]
            rw [show parseStringBody ('\\' :: 't' :: (escStr cs ++ '"' :: rest))
                = (parseStringBody (escStr cs ++ '"' :: rest)).map (fun p => ('\t' :: p.1, p.2)) from rfl]
            rw [ih]
            rfl
          · by_cases h5 : c = '\r'
            · subst h5
              rw [show escChar '\r' = ['\\', 'r'] from rfl]
              rw [show (['\\', 'r'] : Str) ++ (escStr cs ++ '"' :: rest)
                  = '\\' :: 'r' :: (escStr cs ++ '"' :: rest) from rfl]
              rw [show parseStringBody ('\\' :: 'r' :: (escStr cs ++ '"' :: rest))
                  = (parseStringBody (escStr cs ++ '"' :: rest)).map (fun p => ('\r' :: p.1, p.2)) from rfl]
              rw [ih]
              rfl
            · rw [show escChar c = [c] from by simp [escChar, h1, h2, h3, h4, h5]]
              rw [List.singleton_append]
              cases htail : escStr cs ++ '"' :: rest with
              | nil => exact absurd htail (by simp)
              | cons d tl =>
                rw [htail] at ih
                rw [show parseStringBody (c :: d :: tl)
                    = (if c = '"' then some ([], d :: tl)
                      else if c = '\\' then
                        (match unescChar d with
                         | some u => (parseStringBody tl).map (fun p => (u :: p.1, p.2))
                         | none => none)
                      else (parseStringBody (d :: tl)).map (fun p => (c :: p.1, p.2)))
                  from rfl]
                rw [if_neg h1, if_neg h2, ih]
                rfl

theorem parseMembers_succ (f : Nat) (s : Str) :
    parseMembers (f + 1) s =
      (match skipJWs s with
       | [] => none
       | c :: rest =>
         if c = '"' then
           match parseStringBody rest with
           | none => none
           | some (k, r1) =>
             match skipJWs r1 with
             | [] => none
             | d :: r2 =>
               if d = ':' then
                 match parseJVal (skipJWs r2) with
                 | none => none
                 | some (v, r3) =>
                   match skipJWs r3 with
                   | [] => none
                   | e :: r4 =>
                     if e = ',' then
                       match parseMembers f r4 with
                       | some (ms, r) => some ((k, v) :: ms, r)
                       | none => none
                     else if e = '}' then some ([(k, v)], r4)
                     else none
               else none
         else none) := rfl

theorem parseJVal_renderStr (s rest : Str) :
    parseJVal (renderStr s ++ rest) = some (JVal.str s, rest) := by
  have h : renderStr s ++ rest = '"' :: (escStr s ++ '"' :: rest) := by
    simp [renderStr]
  rw [h]
  rw [show parseJVal ('"' :: (escStr s ++ '"' :: rest))
      = (parseStringBody (escStr s ++ '"' :: rest)).map (fun p => (JVal.str p.1, p.2)) from rfl]
  rw [parseStringBody_escStr]
  rfl

theorem skipJWs_renderStr (t rest : Str) :
    skipJWs (renderStr t ++ rest) = renderStr t ++ rest := by
  have h : renderStr t ++ rest = '"' :: (escStr t ++ '"' :: rest) := by simp [renderStr]
  rw [h, skipJWs_quote]

theorem parseMembers_render_single (k t rest : Str) (f : Nat) :
    parseMembers (f + 1) (renderMembers [(k, JVal.str t)] ++ '}' :: rest)
      = some ([(k, JVal.str t)], rest) := by
  have h1 : renderMembers [(k, JVal.str t)] ++ '}' :: rest
      = '"' :: (escStr k ++ '"' :: (':' :: (renderStr t ++ '}' :: rest))) := by
    simp [renderMembers, renderMember, renderStr, renderJVal]
  rw [h1, parseMembers_succ, skipJWs_quote]
  simp only [parseStringBody_escStr, eq_self_iff_true, if_true, ite_true, skipJWs_colon,
    skipJWs_renderStr, parseJVal_renderStr, skipJWs_rbrace, skipJWs_comma]
  rw [if_neg (by decide : ¬ ('}' : Char) = ',')]

theorem parseMembers_render_step (k t rest rem : Str) (f : Nat) (ms : List (Str × JVal))
    (ih : parseMembers f rem = some (ms, rest)) :
    parseMembers (f + 1) (renderMember (k, JVal.str t) ++ ',' :: rem)
      = some ((k, JVal.str t) :: ms, rest) := by
  have h1 : renderMember (k, JVal.str t) ++ ',' :: rem
      = '"' :: (escStr k ++ '"' :: (':' :: (renderStr t ++ ',' :: rem))) := by
    simp [renderMember, renderStr, renderJVal]
  rw [h1, parseMembers_succ, skipJWs_quote]
  simp only [parseStringBody_escStr, eq_self_iff_true, if_true, ite_true, skipJWs_colon,
    skipJWs_renderStr, parseJVal_renderStr, skipJWs_rbrace, skipJWs_comma, ih]

theorem parseMembers_render :
    ∀ (ms : List (Str × JVal)), ms ≠ [] → (∀ m ∈ ms, ∃ t, m.2 = JVal.str t) →
    ∀ (fuel : Nat) (rest : Str), ms.length ≤ fuel →
    parseMembers fuel (renderMembers ms ++ '}' :: rest) = some (ms, rest)
  | [], h, _, _, _, _ => absurd rfl h
  | [(k, v)], _, hstr, fuel, rest, hfuel => by
    obtain ⟨t, ht⟩ := hstr (k, v) (by simp)
    simp only at ht
    subst ht
    cases fuel with
    | zero => simp at hfuel
    | succ f => exact parseMembers_render_single k t rest f
  | (k, v) :: m2 :: ms, _, hstr, fuel, rest, hfuel => by
    obtain ⟨t, ht⟩ := hstr (k, v) (by simp)
    simp only at ht
    subst ht
    cases fuel with
    | zero => simp at hfuel
    | succ f =>
      have ih := parseMembers_render (m2 :: ms) (by simp)
        (fun m hm => hstr m (by simp [hm])) f rest
        (by simp only [List.length_cons] at hfuel ⊢; omega)
      have h0 : renderMembers ((k, JVal.str t) :: m2 :: ms) ++ '}' :: rest
          = renderMember (k, JVal.str t) ++ ',' :: (renderMembers (m2 :: ms) ++ '}' :: rest) := by
        simp [renderMembers]
      rw [h0]
      exact parseMembers_render_step k t rest _ f (m2 :: ms) ih

theorem renderMembers_head (m : Str × JVal) (ms : List (Str × JVal)) :
    ∃ t, renderMembers (m :: ms) = '"' :: t := by
  cases ms with
  | nil =>
    exact ⟨escStr m.1 ++ '"' :: ':' :: renderJVal m.2, by
      simp [renderMembers, renderMember, renderStr]⟩
  | cons m2 ms2 =>
    exact ⟨(escStr m.1 ++ '"' :: ':' :: renderJVal m.2) ++ ',' :: renderMembers (m2 :: ms2), by
      simp [renderMembers, renderMember, renderStr]⟩

theorem jsonParse_unfold (s : Str) :
    jsonParse s =
      (match skipJWs s with
       | [] => none
       | c :: rest =>
         if c = '{' then
           match skipJWs rest with
           | [] => none
           | d :: r2 =>
             if d = '}' then (if skipJWs r2 = [] then some (Json.obj []) else none)
             else
               match parseMembers (rest.length + 1) rest with
               | some (ms, r) => if skipJWs r = [] then some (Json.obj ms) else none
               | none => none
         else
           match parseJVal (c :: rest) with
           | some (v, r) => if skipJWs r = [] then some (Json.val v) else none
           | none => none) := rfl

theorem length_le_renderMembers :
    ∀ ms : List (Str × JVal), ms.length ≤ (renderMembers ms).length + 1
  | [] => by simp
  | [m] => by
    obtain ⟨t, ht⟩ := renderMembers_head m []
    simp [ht]
  | m :: m2 :: ms => by
    have ih := length_le_renderMembers (m2 :: ms)
    have hr : renderMembers (m :: m2 :: ms)
        = renderMember m ++ ',' :: renderMembers (m2 :: ms) := by
      simp [renderMembers]
    rw [hr]
    simp only [List.length_cons, List.length_append] at ih ⊢
    omega

theorem jsonParse_renderObj (ms : List (Str × JVal)) (hne : ms ≠ [])
    (hstr : ∀ m ∈ ms, ∃ t, m.2 = JVal.str t) :
    jsonParse (renderObj ms) = some (Json.obj ms) := by
  cases ms with
  | nil => exact absurd rfl hne
  | cons m rest =>
    obtain ⟨t, ht⟩ := renderMembers_head m rest
    have h0 : renderObj (m :: rest) = '{' :: (renderMembers (m :: rest) ++ '}' :: []) := by
      simp [renderObj]
    rw [h0, jsonParse_unfold, skipJWs_lbrace]
    have hfuel : (m :: rest).length ≤ (renderMembers (m :: rest) ++ '}' :: ([] : Str)).length + 1 := by
      have := length_le_renderMembers (m :: rest)
      simp only [List.length_append, List.length_cons] at this ⊢
      omega
    have hpm := parseMembers_render (m :: rest) (by simp) hstr
      ((renderMembers (m :: rest) ++ '}' :: ([] : Str)).length + 1) [] hfuel
    rw [ht] at hpm ⊢
    simp only [List.cons_append] at hpm ⊢
    simp only [skipJWs_quote, show (('"' : Char) = '}') = False from by simp, if_false, hpm]
    simp [skipJWs]

/-! ## Log journal (`logger.ts`, `src/unnamed/part_000`)

A log file is modelled by its content (`Option Str`: `none` = the file
does not exist).  `appendLog` is modelled by the content of the file
after the call returns; the clock (`new Date().toISOString()`) is an
explicit argument. -/

/-- The part of a `LogEntry` supplied by callers of `appendLog`
(`Omit<LogEntry, 'timestamp' | 'loopId'>`). -/
structure EntryBody where
  type : Str
  content : Str
  deriving DecidableEq, Repr

/-- A full log record as stamped by `appendLog`. -/
structure LogEntry where
  timestamp : Str
  loopId : Str
  type : Str
  content : Str
  deriving DecidableEq, Repr

/-- The JSON members of a log record, in `JSON.stringify` key order
(`{timestamp, loopId, ...entry}` with `entry = {type, content}`). -/
def entryMembers (e : LogEntry) : List (Str × JVal) :=
  [(str "timestamp", JVal.str e.timestamp), (str "loopId", JVal.str e.loopId),
    (str "type", JVal.str e.type), (str "content", JVal.str e.content)]

/-- The JSON value of a log record. -/
def entryJson (e : LogEntry) : Json := Json.obj (entryMembers e)

/-- `JSON.stringify(fullEntry)`. -/
def stringifyEntry (e : LogEntry) : Str := renderObj (entryMembers e)

/-- `appendLog(loopId, entry)`: the content of the log file after the
call, given its prior content (`none` = file absent; `appendFileSync`
creates it).  `now` is the timestamp stamped onto the entry. -/
def appendLogContent (prior : Option Str) (now loopId : Str) (b : EntryBody) : Str :=
  prior.getD [] ++ stringifyEntry ⟨now, loopId, b.type, b.content⟩ ++ ['\n']

/-- `readLogs(loopId)`: trim the content, split on newlines, drop empty
strings, parse each line, silently skipping malformed ones.  The parsed
values are returned as-is (the source casts them to `LogEntry` without
any check). -/
def readLogs (file : Option Str) : List Json :=
  match file with
  | none => []
  | some content =>
    ((splitNl (jsTrim content)).filter (fun l => ¬l = [])).filterMap jsonParse

/-- The tail loop of `readRecentLogs`: walk the chunk's lines from the
last towards the first, parsing and prepending, until `count` entries
have been collected.  `rl` is the reversed line list. -/
def collectTail : List Str → Nat → List Json → List Json
  | [], _, acc => acc
  | l :: rest, count, acc =>
    if acc.length < count then
      match jsonParse l with
      | some e => collectTail rest count (e :: acc)
      | none => collectTail rest count acc
    else acc

/-- The suffix of the file actually read by `readRecentLogs`:
the last `min(fileSize, count*500)` bytes. -/
def lastChunk (content : Str) (count : Nat) : Str :=
  content.drop (content.length - min content.length (count * 500))

/-- `readRecentLogs(loopId, count)`. -/
def readRecentLogs (file : Option Str) (count : Nat) : List Json :=
  match file with
  | none => []
  | some content =>
    if content.length = 0 then []
    else
      let chunk := lastChunk content count
      let lines := (splitNl chunk).filter (fun l => ¬l = [])
      collectTail lines.reverse count []

/-! ### The polling tailer (`tailLog`) -/

/-- The mutable state of one tailer: the byte offset already consumed
and the buffered partial line. -/
structure TailState where
  position : Nat
  lineBuffer : Str
  deriving DecidableEq, Repr

/-- One poll tick of `tailLog` against the current file content:
if the file grew, read the delta, split off complete lines, deliver the
parsed non-blank ones and keep the trailing partial line buffered; if
the file shrank, treat as truncation and reset. Returns the new state
and the entries delivered to `onEntry`, in delivery order. -/
def pollTick (content : Str) (s : TailState) : TailState × List Json :=
  if content.length > s.position then
    let newContent := content.drop s.position
    let buf := s.lineBuffer ++ newContent
    let lines := splitNl buf
    let delivered := (lines.dropLast).filterMap
      (fun l => if ¬ jsTrim l = [] then jsonParse l else none)
    (⟨content.length, lines.getLastD []⟩, delivered)
  else if content.length < s.position then
    (⟨0, []⟩, [])
  else
    (s, [])

/-- Run a sequence of poll ticks, one per observed file content,
collecting all deliveries in order. -/
def runPolls : List Str → TailState → TailState × List Json
  | [], s => (s, [])
  | c :: rest, s =>
    let r1 := pollTick c s
    let r2 := runPolls rest r1.1
    (r2.1, r1.2 ++ r2.2)

/-- The tailer state right after `tailLog` returns: the position is the
current file size and the line buffer is empty (the synchronous first
poll sees `size = position` and delivers nothing). -/
def initTailState (c0 : Str) : TailState := ⟨c0.length, []⟩

/-! ### File-system initialisation performed by `tailLog` (for C10) -/

/-- A tiny file-system model: the set of directories and a map from
paths to file contents. -/
structure FS where
  dirs : List Str
  files : List (Str × Str)
  deriving DecidableEq, Repr

def fsLookup (fs : FS) (p : Str) : Option Str :=
  (fs.files.find? (fun kv => kv.1 = p)).map (·.2)

/-- Modelled from the spec: `getLoopDir` lives in the missing
`state.ts`; §6 fixes the layout `loops/<loopId>/` under the data root. -/
def getLoopDir (loopId : Str) : Str := str "loops/" ++ loopId

/-- `getLogPath(loopId)` (source: `path.join(getLoopDir(loopId), 'log.jsonl')`). -/
def getLogPath (loopId : Str) : Str := getLoopDir loopId ++ str "/log.jsonl"

/-- Modelled from the spec: `ensureLoopDir` lives in the missing
`state.ts`; it creates the loop's directory if absent. -/
def ensureLoopDir (fs : FS) (loopId : Str) : FS :=
  if getLoopDir loopId ∈ fs.dirs then fs
  else { fs with dirs := getLoopDir loopId :: fs.dirs }

/-- The initialisation `tailLog` performs before its first poll tick:
ensure the loop directory, create the log file empty if missing, and
start at `position = current size` with an empty line buffer. -/
def tailLogInit (fs : FS) (loopId : Str) : FS × TailState :=
  let fs1 := ensureLoopDir fs loopId
  let p := getLogPath loopId
  let fs2 := if (fsLookup fs1 p).isSome then fs1
    else { fs1 with files := (p, []) :: fs1.files }
  let size := ((fsLookup fs2 p).getD []).length
  (fs2, ⟨size, []⟩)

/-! ### Resume summariser (`generateResumeSummary`) -/

/-- Decimal digit character. -/
def digitCh : Nat → Char
  | 0 => '0' | 1 => '1' | 2 => '2' | 3 => '3' | 4 => '4'
  | 5 => '5' | 6 => '6' | 7 => '7' | 8 => '8' | _ => '9'

/-- Decimal digits, most significant first; the fuel (any value above
the digit count, the entry point passes `n + 1`) keeps the recursion
structural. -/
def natDigitsAux : Nat → Nat → Str
  | 0, _ => []
  | fuel + 1, n =>
    if n < 10 then [digitCh n]
    else natDigitsAux fuel (n / 10) ++ [digitCh (n % 10)]

/-- Decimal rendering of a natural number (template-literal
interpolation of a JS number). -/
def natToStr (n : Nat) : Str := natDigitsAux (n + 1) n

/-- Leftmost match of `/Iteration (\d+)/`: scan for the literal
`"Iteration "` followed by at least one digit; return the digit run as a
number (`parseInt(match[1], 10)`), or 0 when there is no match
(`match ? parseInt(...) : 0`). -/
def iterationNum : Str → Nat
  | [] => 0
  | c :: rest =>
    if isPref (str "Iteration ") (c :: rest) then
      let ds := ((c :: rest).drop 10).takeWhile isDigitCh
      if ¬ds = [] then natOfDigits ds else iterationNum rest
    else iterationNum rest

/-- `Set` insertion-order deduplication followed by `Array.from`. -/
def dedup (l : List Str) : List Str :=
  l.foldl (fun acc x => if x ∈ acc then acc else acc ++ [x]) []

/-- `join(sep)`. -/
def joinWith (sep : Str) : List Str → Str
  | [] => []
  | [l] => l
  | l :: ls => l ++ sep ++ joinWith sep ls

/-- `Array.prototype.slice(-n)`: the last `n` elements. -/
def takeRight {α : Type} (n : Nat) (l : List α) : List α := l.drop (l.length - n)

/-- `String.prototype.replace(pat, '')` with a string pattern: remove
the first occurrence of `pat` (non-empty in all uses). -/
def replaceFirst (s pat : Str) : Str :=
  match s with
  | [] => []
  | c :: rest => if isPref pat (c :: rest) then rest.drop (pat.length - 1)
    else c :: replaceFirst rest pat

/-- JavaScript `s.slice(0, e)` where `e` may be negative. -/
def jsSliceTo (s : Str) (e : Int) : Str :=
  if 0 ≤ e then s.take e.toNat else s.take (s.length - min s.length e.natAbs)

/-- The sections (`parts`) of the resume summary, in push order.
The two global-regex scans that extract file names
(`/(?:created|modified|...)\s+...\.[a-z]{1,5}.../gi`) and tool names
(`/(?:Using|Called|Invoked)\s+(?:tool\s+)?(\w+)/gi`) from agent text are
taken as parameters `extractFiles` / `extractTools` (each returns the
capture list for one content string); the claims under verification do
not depend on their letter. -/
def generateParts (extractFiles extractTools : Str → List Str)
    (logs : List LogEntry) : List Str :=
  let systemLogs := logs.filter (fun l => l.type = str "system")
  let agentLogs := logs.filter (fun l => l.type = str "agent")
  let iterationMatches := (systemLogs.filter
      (fun l => containsSub l.content (str "--- Iteration"))).map
      (fun l => iterationNum l.content)
  let maxIteration := iterationMatches.foldl Nat.max 0
  let criteriaCompletions := (systemLogs.filter
      (fun l => containsSub l.content (str "Criterion")
        && containsSub l.content (str "complete"))).map (fun l => l.content)
  let filesModified := dedup (agentLogs.flatMap (fun l => extractFiles l.content))
  -- `toolsUsed` is computed by the source but never used in the summary.
  let _toolsUsed := dedup (agentLogs.flatMap (fun l => extractTools l.content))
  let analysisLogs := systemLogs.filter (fun l => isPref (str "Analysis:") l.content)
  let lastAnalysis := ((analysisLogs.getLast?).map (fun l => l.content)).getD []
  let parts := [str "Iterations completed: " ++ natToStr maxIteration]
  let parts := if filesModified.length > 0 then
      parts ++ [str "Files touched: " ++ joinWith (str ", ") (filesModified.take 10)]
    else parts
  let parts := if criteriaCompletions.length > 0 then
      parts ++ [str "Criteria progress: " ++ natToStr criteriaCompletions.length
        ++ str " updates"]
    else parts
  let parts := if ¬lastAnalysis = [] then
      parts ++ [str "Last analysis: " ++ replaceFirst lastAnalysis (str "Analysis: ")]
    else parts
  let recentAgent := joinWith (str "\n")
      ((takeRight 5 agentLogs).map (fun l => l.content.take 200))
  let parts := if recentAgent.length > 0 then
      parts ++ [str "Recent activity:\n" ++ recentAgent.take 800]
    else parts
  parts

/-- `generateResumeSummary(loopId, maxChars = 2000)`.  `logs` is
`readLogs(loopId)` (the source casts the parsed JSON to `LogEntry`). -/
def generateResumeSummary (extractFiles extractTools : Str → List Str)
    (logs : List LogEntry) (maxChars : Nat) : Str :=
  if logs.length = 0 then str "No previous work logged."
  else
    let summary := joinWith (str "\n\n") (generateParts extractFiles extractTools logs)
    if summary.length > maxChars then
      jsSliceTo summary ((maxChars : Int) - 3) ++ str "..."
    else summary

/-! ## Issue module (`src/unnamed/part_001`) -/

/-- Who completed a criterion (spec §3). -/
inductive CompletedBy where
  | agent
  | operator
  deriving DecidableEq, Repr

/-- An acceptance criterion (spec §3; `types.ts` is not in the sources,
the shape is fixed by the spec and by every use in the parsing code). -/
structure AcceptanceCriterion where
  text : Str
  completed : Bool
  completedBy : Option CompletedBy
  completedAt : Option Str
  deriving DecidableEq, Repr

/-- Number of leading `#` characters. -/
def hashCount (s : Str) : Nat := (s.takeWhile (fun c => c = '#')).length

def afterHashes (s : Str) : Str := s.dropWhile (fun c => c = '#')

/-- Match `\s*w₁\s*w₂…` (each keyword case-insensitively, given in
lower case), anchored at the start, trailing text ignored — the header
regexes are not `$`-anchored. -/
def matchKeywords : List Str → Str → Bool
  | [], _ => true
  | w :: ws, s =>
    let s1 := skipWsL s
    ciPref w s1 && matchKeywords ws (s1.drop w.length)

/-- `/^#{1,3}\s*…keywords…/i`: one to three leading `#`s (a fourth `#`
blocks the match, since `\s*` cannot absorb it), then the keywords. -/
def isHashHeader (words : List Str) (t : Str) : Bool :=
  decide (1 ≤ hashCount t) && decide (hashCount t ≤ 3) && matchKeywords words (afterHashes t)

/-- `/^\*\*acceptance\s*criteria\*\*/i`. -/
def isBoldACHeader (t : Str) : Bool :=
  isPref (str "**") t &&
  (let s1 := t.drop 2
   ciPref (str "acceptance") s1 &&
   (let s2 := skipWsL (s1.drop 10)
    ciPref (str "criteria") s2 && isPref (str "**") (s2.drop 8)))

/-- `criteriaSectionHeaders.some(h => h.test(line.trim()))` — the five
recognised section-header shapes, applied to the trimmed line. -/
def isSectionHeaderLine (t : Str) : Bool :=
  isHashHeader [str "acceptance", str "criteria"] t ||
  isHashHeader [str "done", str "when"] t ||
  isHashHeader [str "stop", str "conditions"] t ||
  isHashHeader [str "requirements"] t ||
  isBoldACHeader t

/-- `/^#{1,3}\s+/` on the raw line. -/
def isHeadingLine (l : Str) : Bool :=
  decide (1 ≤ hashCount l) && decide (hashCount l ≤ 3) &&
  (match afterHashes l with
   | [] => false
   | c :: _ => wsChar c)

/-- `line.match(/^[\s]*[-*]\s*\[([ xX])\]\s*(.+)/)` turned into a
criterion: leading whitespace, a bullet, optional whitespace, a
checkbox, then a non-empty remainder whose trim is the text.  A checked
box is recorded `completed` with `completedBy = 'operator'`. -/
def checkboxCriterion (l : Str) : Option AcceptanceCriterion :=
  match skipWsL l with
  | [] => none
  | c :: rest =>
    if c = '-' || c = '*' then
      match skipWsL rest with
      | b :: m :: cl :: rem =>
        if b = '[' && (m = ' ' || m = 'x' || m = 'X') && cl = ']' then
          if rem = [] then none
          else some { text := jsTrim rem,
                      completed := m = 'x' || m = 'X',
                      completedBy :=
                        if m = 'x' || m = 'X' then some CompletedBy.operator else none,
                      completedAt := none }
        else none
      | _ => none
    else none

/-- `line.match(/^[\s]*[-*]\s+(.+)/)` turned into a criterion: a bullet
followed by at least one whitespace character and at least one further
character; the capture's trim is the trim of everything after the
bullet. -/
def bulletCriterion (l : Str) : Option AcceptanceCriterion :=
  match skipWsL l with
  | [] => none
  | c :: rest =>
    if c = '-' || c = '*' then
      match rest with
      | [] => none
      | d :: rest2 =>
        if wsChar d && ¬rest2 = [] then
          some { text := jsTrim rest, completed := false,
                 completedBy := none, completedAt := none }
        else none
    else none

/-- The scan of `parseAcceptanceCriteria` once inside a recognised
section: a non-header heading ends the section; checkbox items are
parsed first, then plain bullets; other lines are skipped. -/
def parseIn : List Str → List AcceptanceCriterion
  | [] => []
  | l :: rest =>
    if isHeadingLine l && ¬isSectionHeaderLine (jsTrim l) then []
    else
      match checkboxCriterion l with
      | some c => c :: parseIn rest
      | none =>
        match bulletCriterion l with
        | some c => c :: parseIn rest
        | none => parseIn rest

/-- The scan of `parseAcceptanceCriteria` before a section header has
been seen: skip lines until one matches a header, then switch to
`parseIn` on the remaining lines. -/
def parsePre : List Str → List AcceptanceCriterion
  | [] => []
  | l :: rest =>
    if isSectionHeaderLine (jsTrim l) then parseIn rest else parsePre rest

/-- `parseAcceptanceCriteria(body)`: section scan first; if it yields
nothing, fall back to collecting every checkbox line in the body. -/
def parseAcceptanceCriteria (body : Str) : List AcceptanceCriterion :=
  let lines := splitNl body
  let criteria := parsePre lines
  if criteria = [] then lines.filterMap checkboxCriterion else criteria

/-- One line of `renderAcceptanceCriteriaSection`. -/
def renderCriterionLine (ac : AcceptanceCriterion) : Str :=
  str "- " ++ (if ac.completed then str "[x]" else str "[ ]") ++ str " " ++ ac.text

/-- `renderAcceptanceCriteriaSection(criteria)` as its list of lines. -/
def renderAcceptanceCriteriaSection (criteria : List AcceptanceCriterion) : List Str :=
  str "## Acceptance Criteria" :: criteria.map renderCriterionLine

/-- Index of the first line matching a section header. -/
def findStart : List Str → Option Nat
  | [] => none
  | l :: rest =>
    if isSectionHeaderLine (jsTrim l) then some 0
    else (findStart rest).map (· + 1)

/-- Distance from `start + 1` to the heading that ends the section (or
to the end of the body). -/
def endOffset : List Str → Nat
  | [] => 0
  | l :: rest =>
    if isHeadingLine l && ¬isSectionHeaderLine (jsTrim l) then 0
    else 1 + endOffset rest

/-- Is there a run of three (or more) consecutive newlines? -/
def hasTriple : Str → Bool
  | a :: b :: c :: rest => (a = '\n' && b = '\n' && c = '\n') || hasTriple (b :: c :: rest)
  | _ => false

/-- `replace(/\n{3,}/g, '\n\n')`: every maximal run of three or more
newlines collapses to two (implemented by repeatedly deleting the first
newline of any visible triple). -/
def collapseNl : Str → Str
  | a :: b :: c :: rest =>
    if a = '\n' && b = '\n' && c = '\n' then collapseNl (b :: c :: rest)
    else a :: collapseNl (b :: c :: rest)
  | s => s

/-- `s.trimEnd()`. -/
def trimEnd (s : Str) : Str := (s.reverse.dropWhile wsChar).reverse

/-- `applyAcceptanceCriteriaToIssueBody(body, criteria)`. -/
def applyAcceptanceCriteriaToIssueBody (body : Str) (criteria : List AcceptanceCriterion) : Str :=
  let lines := splitNl body
  let sec := renderAcceptanceCriteriaSection criteria
  match findStart lines with
  | some start =>
    let endIdx := start + 1 + endOffset (lines.drop (start + 1))
    collapseNl (joinNl (lines.take start ++ sec ++ lines.drop endIdx))
  | none =>
    let trimmed := trimEnd body
    trimmed ++ (if trimmed.length > 0 then str "\n\n" else []) ++ joinNl sec

/-! ### `closeIssue` (`src/unnamed/part_001`, lines 55–89) -/

inductive CloseIssueResult where
  | closed
  | alreadyClosed
  deriving DecidableEq, Repr

/-- Outcome of running the `gh` CLI: success, or a failure carrying
`err.code` and the captured streams/message. -/
inductive ExecOutcome where
  | ok
  | err (code : Option Str) (stderr stdout message : Str)

/-- Match a word sequence at the current position: each word
case-insensitively, consecutive words separated by `\s+` (the words
start with non-whitespace letters, so greedy whitespace consumption is
exact). -/
def matchSeqAt : List Str → Str → Bool
  | [], _ => true
  | [w], s => ciPref w s
  | w :: ws, s =>
    ciPref w s &&
    (let r := s.drop w.length
     match r with
     | [] => false
     | c :: _ => wsChar c && matchSeqAt ws (skipWsL r))

/-- Does the word sequence occur anywhere in `s`? -/
def containsSeq (words : List Str) : Str → Bool
  | [] => false
  | c :: rest => matchSeqAt words (c :: rest) || containsSeq words rest

/-- `/already\s+closed/i.test(m) || /already\s+been\s+closed/i.test(m)`. -/
def alreadyClosedMsg (m : Str) : Bool :=
  containsSeq [str "already", str "closed"] m ||
  containsSeq [str "already", str "been", str "closed"] m

/-- `(stderr || stdout || err?.message || '')`. -/
def firstNonempty (a b c : Str) : Str :=
  if ¬a = [] then a else if ¬b = [] then b else c

/-- `message.split('\n')[0] || 'Unknown error'`. -/
def firstLineOr (m : Str) : Str :=
  let fl := (splitNl m).headD []
  if ¬fl = [] then fl else str "Unknown error"

/-- The argv built by `closeIssue` for the `gh` CLI. -/
def buildCloseArgs (url : Str) (comment : Option Str) : List Str :=
  let args := [str "issue", str "close", url]
  match comment with
  | some c => if ¬jsTrim c = [] then args ++ [str "--comment", jsTrim c] else args
  | none => args

/-- `closeIssue(url, comment?)`: thrown errors are modelled as
`Except.error`; the CLI execution is the parameter `exec`. -/
def closeIssue (url : Str) (comment : Option Str) (exec : List Str → ExecOutcome) :
    Except Str CloseIssueResult :=
  if url = [] then Except.error (str "Missing GitHub issue URL")
  else
    match exec (buildCloseArgs url comment) with
    | ExecOutcome.ok => Except.ok CloseIssueResult.closed
    | ExecOutcome.err code stderr stdout msg =>
      let message := jsTrim (firstNonempty stderr stdout msg)
      if code = some (str "ENOENT") || containsSub message (str "gh: command not found") then
        Except.error (str "GitHub CLI (gh) not found. Install from https://cli.github.com")
      else if alreadyClosedMsg message then
        Except.ok CloseIssueResult.alreadyClosed
      else
        Except.error (str "Failed to close issue: " ++ firstLineOr message)

/-! ### Prompt builders -/

/-- Issue snapshot (spec §3). -/
structure Issue where
  url : Str
  number : Nat
  title : Str
  body : Str
  repo : Str
  acceptanceCriteria : List AcceptanceCriterion
  originalAcceptanceCriteria : List AcceptanceCriterion
  deriving DecidableEq, Repr

/-- `buildPromptFromIssue(issue)` (`src/unnamed/part_001`, lines 243–266). -/
def buildPromptFromIssue (issue : Issue) : Str :=
  str "# Task: " ++ issue.title ++ str "\n\n"
  ++ str "GitHub Issue: " ++ issue.url ++ str "\n\n"
  ++ (if issue.acceptanceCriteria.length > 0 then
      str "## Acceptance Criteria\n"
      ++ (issue.acceptanceCriteria.flatMap (fun ac =>
          str "- " ++ (if ac.completed then str "[x]" else str "[ ]")
            ++ str " " ++ ac.text ++ str "\n"))
      ++ str "\n"
    else [])
  ++ str "## Issue Description\n" ++ issue.body ++ str "\n\n"
  ++ str "## Instructions\n"
  ++ str "Complete all acceptance criteria above.\n"
  ++ str "Mark criteria as you finish them with:\n"
  ++ str "- <criterion-complete>N</criterion-complete>\n"
  ++ str "- <criterion-incomplete>N</criterion-incomplete> (if you need to regress)\n"
  ++ str "Criteria are 1-indexed based on the list above.\n"
  ++ str "When all criteria are complete, output the exact tag: <promise>TASK COMPLETE</promise>\n"

/-- The numbered lines of the resume prompt's criteria list
(`remainingCriteria.map((c, i) => `${i + 1}. ${c}`)`). -/
def numberedLines (remainingCriteria : List Str) : List Str :=
  remainingCriteria.enum.map (fun p => natToStr (p.1 + 1) ++ str ". " ++ p.2)

/-- The `criteriaList` of `buildResumePrompt`. -/
def criteriaListOf (remainingCriteria : List Str) : Str :=
  if remainingCriteria.length > 0 then joinWith (str "\n") (numberedLines remainingCriteria)
  else str "(all criteria completed)"

def resumePromptPrefix : Str :=
  str "RESUMING FROM PAUSE (previous session)\n\n## Summary of work done so far:\n"

def resumePromptMid : Str := str "\n\n## Remaining acceptance criteria:\n"

def resumePromptSuffix : Str :=
  str "\n\nPlease continue working on this task. Review the summary above and pick up where you left off. When each criterion is complete, emit <criterion-complete>N</criterion-complete>. When all criteria are done, emit <promise>TASK COMPLETE</promise>."

/-- `claudeAdapter.buildResumePrompt(workSummary, remainingCriteria)`
(`src/src/index.ts`, lines 1884–1898). -/
def buildResumePrompt (workSummary : Str) (remainingCriteria : List Str) : Str :=
  resumePromptPrefix ++ workSummary ++ resumePromptMid
    ++ criteriaListOf remainingCriteria ++ resumePromptSuffix

/-- Modelled from the spec: the engine's cross-session resume
(`resumePausedLoop`, in the missing engine module) passes to
`buildResumePrompt` "exactly the incomplete criteria as of pause, in
original order" (spec §8 Resume correctness, §4.6): the texts of the
criteria whose `completed` flag is false, in stored order. -/
def remainingCriteriaOf (criteria : List AcceptanceCriterion) : List Str :=
  (criteria.filter (fun c => !c.completed)).map (fun c => c.text)

/-- The numbering the claim asks for, written from the spec's words (for
comparison with the code's rendering): each still-incomplete criterion
labelled with its 1-indexed position in the creation-time list. -/
def creationIndexedLines (criteria : List AcceptanceCriterion) : List Str :=
  (criteria.enum.filter (fun p => !p.2.completed)).map
    (fun p => natToStr (p.1 + 1) ++ str ". " ++ p.2.text)

/-! ### Loop state and the operator toggle (`src/src/index.ts`, 495–522) -/

inductive LoopStatus where
  | queued
  | running
  | paused
  | completed
  | stopped
  | error
  deriving DecidableEq, Repr

/-- A loop record (spec §3). -/
structure Loop where
  id : Str
  agent : Str
  status : LoopStatus
  issue : Issue
  repoRoot : Str
  skipPermissions : Bool
  sessionId : Option Str
  startedAt : Option Str
  endedAt : Option Str
  pausedAt : Option Str
  pausedFromPreviousSession : Bool
  issueClosed : Bool
  error : Option Str
  pid : Option Nat
  deriving DecidableEq, Repr

/-- The persistent state document (spec §3). -/
structure SupState where
  loops : List Loop
  deriving DecidableEq, Repr

/-- Modelled from the spec: `updateLoop(state, id, patch)` (missing
`state.ts`, spec §4.1) shallow-merges the patch into the loop with the
matching id; here with the one patch shape `toggleCriterion` uses,
`{ issue }`. -/
def updateLoopIssue (s : SupState) (loopId : Str) (issue : Issue) : SupState :=
  { loops := s.loops.map (fun l => if l.id = loopId then { l with issue := issue } else l) }

/-- `toggleCriterion(loopId, index)`: flips the criterion, stamps
`completedBy`/`completedAt`, persists via `updateLoop`/`saveState` and
appends a `system` log entry.  `logs` is the loop's journal
(`appendLog` stamps timestamp and loopId); `now` is the clock. -/
def toggleCriterion (s : SupState) (logs : List LogEntry) (now : Str)
    (loopId : Str) (index : Nat) : SupState × List LogEntry :=
  match s.loops.find? (fun l => l.id = loopId) with
  | none => (s, logs)
  | some lp =>
    if h : index < lp.issue.acceptanceCriteria.length then
      let c := lp.issue.acceptanceCriteria.get ⟨index, h⟩
      let nextCompleted := !c.completed
      let c' : AcceptanceCriterion :=
        { c with completed := nextCompleted,
                 completedBy := if nextCompleted then some CompletedBy.operator else none,
                 completedAt := if nextCompleted then some now else none }
      let issue' := { lp.issue with
        acceptanceCriteria := lp.issue.acceptanceCriteria.set index c' }
      let s' := updateLoopIssue s loopId issue'
      (s', logs ++ [⟨now, loopId, str "system",
        str "Criterion " ++ natToStr (index + 1) ++ str " marked "
          ++ (if nextCompleted then str "complete" else str "incomplete")
          ++ str " by operator"⟩])
    else (s, logs)

/-! ## Claim theorems -/

theorem fsLookup_ensureLoopDir (fs : FS) (loopId : Str) (p : Str) :
    fsLookup (ensureLoopDir fs loopId) p = fsLookup fs p := by
  unfold ensureLoopDir
  split <;> rfl

/-- C10: calling `tail(loopId, ...)` on a loop whose log file does not
yet exist creates the loop's directory and an empty log file on disk
before the first poll tick (which starts at position 0), so starting a
tailer is a filesystem write, not a pure read. -/
theorem tailLog_init_creates_file (fs : FS) (loopId : Str)
    (h : fsLookup fs (getLogPath loopId) = none) :
    fsLookup (tailLogInit fs loopId).1 (getLogPath loopId) = some []
    ∧ getLoopDir loopId ∈ (tailLogInit fs loopId).1.dirs
    ∧ (tailLogInit fs loopId).2 = ⟨0, []⟩
    ∧ (tailLogInit fs loopId).1 ≠ fs := by
  have h1 : fsLookup (ensureLoopDir fs loopId) (getLogPath loopId) = none := by
    rw [fsLookup_ensureLoopDir]; exact h
  have hdir : getLoopDir loopId ∈ (ensureLoopDir fs loopId).dirs := by
    unfold ensureLoopDir
    split
    · assumption
    · simp
  have hstep : tailLogInit fs loopId =
      (⟨(ensureLoopDir fs loopId).dirs,
          (getLogPath loopId, []) :: (ensureLoopDir fs loopId).files⟩, ⟨0, []⟩) := by
    simp only [tailLogInit]
    rw [h1]
    simp [fsLookup]
  refine ⟨?_, ?_, ?_, ?_⟩
  · rw [hstep]
    simp [fsLookup]
  · rw [hstep]
    exact hdir
  · rw [hstep]
  · intro heq
    rw [hstep] at heq
    have : fsLookup fs (getLogPath loopId) = some [] := by
      conv_lhs => rw [← heq]
      simp [fsLookup]
    rw [h] at this
    exact Option.noConfusion this

/-- Witness for C10 at a concrete file system. -/
theorem tailLog_init_creates_file_witness :
    fsLookup (tailLogInit ⟨[], []⟩ (str "a")).1 (getLogPath (str "a")) = some []
    ∧ getLoopDir (str "a") ∈ (tailLogInit ⟨[], []⟩ (str "a")).1.dirs
    ∧ (tailLogInit ⟨[], []⟩ (str "a")).2 = ⟨0, []⟩
    ∧ (tailLogInit ⟨[], []⟩ (str "a")).1 ≠ (⟨[], []⟩ : FS) :=
  tailLog_init_creates_file ⟨[], []⟩ (str "a") (by decide)

/-- C8: `closeIssue` yields only `closed` or `already_closed`:
`closed` exactly on CLI success, `already_closed` (without throwing)
when the failure message reports the issue already closed, and a thrown
error for an empty url, a missing CLI, and every other failure. -/
theorem closeIssue_classification (url : Str) (comment : Option Str)
    (exec : List Str → ExecOutcome) :
    (∀ r, closeIssue url comment exec = Except.ok r →
      r = CloseIssueResult.closed ∨ r = CloseIssueResult.alreadyClosed)
    ∧ (url = [] → closeIssue url comment exec = Except.error (str "Missing GitHub issue URL"))
    ∧ (¬url = [] → exec (buildCloseArgs url comment) = ExecOutcome.ok →
        closeIssue url comment exec = Except.ok CloseIssueResult.closed)
    ∧ (∀ code stderr stdout msg, ¬url = [] →
        exec (buildCloseArgs url comment) = ExecOutcome.err code stderr stdout msg →
        ¬code = some (str "ENOENT") →
        containsSub (jsTrim (firstNonempty stderr stdout msg)) (str "gh: command not found") = false →
        alreadyClosedMsg (jsTrim (firstNonempty stderr stdout msg)) = true →
        closeIssue url comment exec = Except.ok CloseIssueResult.alreadyClosed)
    ∧ (∀ code stderr stdout msg, ¬url = [] →
        exec (buildCloseArgs url comment) = ExecOutcome.err code stderr stdout msg →
        alreadyClosedMsg (jsTrim (firstNonempty stderr stdout msg)) = false →
        ∃ e, closeIssue url comment exec = Except.error e) := by
  refine ⟨?_, ?_, ?_, ?_, ?_⟩
  · intro r _
    cases r
    · exact Or.inl rfl
    · exact Or.inr rfl
  · intro hurl
    unfold closeIssue
    rw [if_pos hurl]
  · intro hurl hok
    unfold closeIssue
    rw [if_neg hurl, hok]
  · intro code stderr stdout msg hurl herr hcode hnf hac
    unfold closeIssue
    rw [if_neg hurl, herr]
    simp [hcode, hnf, hac]
  · intro code stderr stdout msg hurl herr hac
    unfold closeIssue
    rw [if_neg hurl, herr]
    by_cases hcode : code = some (str "ENOENT")
    · refine ⟨str "GitHub CLI (gh) not found. Install from https://cli.github.com", ?_⟩
      simp [hcode]
    · by_cases hnf : containsSub (jsTrim (firstNonempty stderr stdout msg))
        (str "gh: command not found") = true
      · refine ⟨str "GitHub CLI (gh) not found. Install from https://cli.github.com", ?_⟩
        simp [hnf]
      · refine ⟨str "Failed to close issue: "
          ++ firstLineOr (jsTrim (firstNonempty stderr stdout msg)), ?_⟩
        simp only [Bool.not_eq_true] at hnf
        simp [hcode, hnf, hac]

/-- Witness for C8: a failure whose stderr reports the issue already
closed yields `already_closed`, via the theorem. -/
theorem closeIssue_classification_witness :
    closeIssue (str "u") none
      (fun _ => ExecOutcome.err none (str "issue already closed") [] [])
      = Except.ok CloseIssueResult.alreadyClosed :=
  (closeIssue_classification (str "u") none
      (fun _ => ExecOutcome.err none (str "issue already closed") [] [])).2.2.2.1
    none (str "issue already closed") [] [] (by decide) rfl (by decide) (by decide) (by decide)

/-- C6 counterexample: on an empty log, `generateResumeSummary` returns
the fixed 24-character string `"No previous work logged."` whatever the
`maxChars` bound is, so the result is not bounded by `maxChars = 10`. -/
theorem generateResumeSummary_bound_cex :
    generateResumeSummary (fun _ => []) (fun _ => []) [] 10 = str "No previous work logged."
    ∧ ¬(generateResumeSummary (fun _ => []) (fun _ => []) [] 10).length ≤ 10 := by
  constructor
  · rfl
  · decide

/-- C6 (amended): for a nonempty log and `maxChars ≥ 3`, the summary is
the blank-line join of its sections, truncated with a trailing ellipsis
exactly when the join exceeds `maxChars`, and its length is at most
`maxChars`. -/
theorem generateResumeSummary_amended (extractFiles extractTools : Str → List Str)
    (logs : List LogEntry) (maxChars : Nat) (hlogs : ¬logs = []) (hmax : 3 ≤ maxChars) :
    (generateResumeSummary extractFiles extractTools logs maxChars).length ≤ maxChars
    ∧ ((joinWith (str "\n\n") (generateParts extractFiles extractTools logs)).length ≤ maxChars →
        generateResumeSummary extractFiles extractTools logs maxChars
          = joinWith (str "\n\n") (generateParts extractFiles extractTools logs))
    ∧ ((joinWith (str "\n\n") (generateParts extractFiles extractTools logs)).length > maxChars →
        generateResumeSummary extractFiles extractTools logs maxChars
          = (joinWith (str "\n\n") (generateParts extractFiles extractTools logs)).take (maxChars - 3)
            ++ str "...") := by
  have hlen : ¬logs.length = 0 := by
    simpa [List.length_eq_zero] using hlogs
  have hslice : jsSliceTo (joinWith (str "\n\n") (generateParts extractFiles extractTools logs))
      ((maxChars : Int) - 3)
      = (joinWith (str "\n\n") (generateParts extractFiles extractTools logs)).take (maxChars - 3) := by
    unfold jsSliceTo
    rw [if_pos (by omega)]
    congr 1
    omega
  have hunf : generateResumeSummary extractFiles extractTools logs maxChars
      = if (joinWith (str "\n\n") (generateParts extractFiles extractTools logs)).length > maxChars
        then (joinWith (str "\n\n") (generateParts extractFiles extractTools logs)).take (maxChars - 3)
          ++ str "..."
        else joinWith (str "\n\n") (generateParts extractFiles extractTools logs) := by
    unfold generateResumeSummary
    rw [if_neg hlen]
    simp only [hslice]
  refine ⟨?_, ?_, ?_⟩
  · rw [hunf]
    split
    · rename_i hgt
      have h3 : (str "...").length = 3 := rfl
      rw [List.length_append, h3, List.length_take]
      omega
    · omega
  · intro hle
    rw [hunf, if_neg (by omega)]
  · intro hgt
    rw [hunf, if_pos hgt]

/-- Witness for C6 (amended) on a one-entry log with `maxChars = 3`. -/
theorem generateResumeSummary_amended_witness :
    (generateResumeSummary (fun _ => []) (fun _ => [])
      [⟨str "t", str "l", str "system", str "c"⟩] 3).length ≤ 3 :=
  (generateResumeSummary_amended (fun _ => []) (fun _ => [])
    [⟨str "t", str "l", str "system", str "c"⟩] 3 (by simp) (by omega)).1

/-- The criterion as rewritten by `toggleCriterion` when completing. -/
def toggledCriterion (c : AcceptanceCriterion) (now : Str) : AcceptanceCriterion :=
  { c with completed := true, completedBy := some CompletedBy.operator,
           completedAt := some now }

/-- C3: toggling an incomplete criterion marks it complete with
`completedBy = operator` and `completedAt` set, appends a `system` log
entry for that loop, and changes nothing else: every other loop is
untouched and on the toggled loop every field other than the criterion
itself — in particular `status` and `endedAt` — keeps its value, so the
loop is never auto-completed even if the toggle completes the last
criterion of a `running` loop. -/
theorem toggleCriterion_complete (s : SupState) (logs : List LogEntry) (now loopId : Str)
    (index : Nat) (lp : Loop)
    (hfind : s.loops.find? (fun l => l.id = loopId) = some lp)
    (huniq : ∀ l ∈ s.loops, l.id = loopId → l = lp)
    (hidx : index < lp.issue.acceptanceCriteria.length)
    (hinc : (lp.issue.acceptanceCriteria.get ⟨index, hidx⟩).completed = false) :
    (toggleCriterion s logs now loopId index).2
      = logs ++ [⟨now, loopId, str "system",
          str "Criterion " ++ natToStr (index + 1) ++ str " marked "
            ++ str "complete" ++ str " by operator"⟩]
    ∧ (∀ l' ∈ (toggleCriterion s logs now loopId index).1.loops, ¬l'.id = loopId → l' ∈ s.loops)
    ∧ (∃ l', l' ∈ (toggleCriterion s logs now loopId index).1.loops ∧ l'.id = loopId)
    ∧ (∀ l' ∈ (toggleCriterion s logs now loopId index).1.loops, l'.id = loopId →
        l'.status = lp.status
        ∧ l'.endedAt = lp.endedAt
        ∧ l'.agent = lp.agent ∧ l'.repoRoot = lp.repoRoot
        ∧ l'.skipPermissions = lp.skipPermissions ∧ l'.sessionId = lp.sessionId
        ∧ l'.startedAt = lp.startedAt ∧ l'.pausedAt = lp.pausedAt
        ∧ l'.pausedFromPreviousSession = lp.pausedFromPreviousSession
        ∧ l'.issueClosed = lp.issueClosed ∧ l'.error = lp.error ∧ l'.pid = lp.pid
        ∧ l'.issue.url = lp.issue.url ∧ l'.issue.number = lp.issue.number
        ∧ l'.issue.title = lp.issue.title ∧ l'.issue.body = lp.issue.body
        ∧ l'.issue.repo = lp.issue.repo
        ∧ l'.issue.originalAcceptanceCriteria = lp.issue.originalAcceptanceCriteria
        ∧ l'.issue.acceptanceCriteria.get? index
            = some (toggledCriterion (lp.issue.acceptanceCriteria.get ⟨index, hidx⟩) now)
        ∧ ∀ j, ¬j = index → l'.issue.acceptanceCriteria.get? j
            = lp.issue.acceptanceCriteria.get? j) := by
  have hlpid : lp.id = loopId := by
    have := List.find?_some hfind
    simpa using this
  have hlpmem : lp ∈ s.loops := List.mem_of_find?_eq_some hfind
  have hstep : toggleCriterion s logs now loopId index
      = (updateLoopIssue s loopId
          { lp.issue with acceptanceCriteria := lp.issue.acceptanceCriteria.set index (toggledCriterion (lp.issue.acceptanceCriteria.get ⟨index, hidx⟩) now) },
        logs ++ [⟨now, loopId, str "system",
          str "Criterion " ++ natToStr (index + 1) ++ str " marked "
            ++ str "complete" ++ str " by operator"⟩]) := by
    unfold toggleCriterion
    simp only [hfind]
    rw [dif_pos hidx]
    have hcomp : (getElem lp.issue.acceptanceCriteria index hidx).completed = false := hinc
    simp [toggledCriterion, List.get_eq_getElem, hcomp]
  refine ⟨?_, ?_, ?_, ?_⟩
  · rw [hstep]
  · intro l' hl' hne
    rw [hstep] at hl'
    simp only [updateLoopIssue, List.mem_map] at hl'
    obtain ⟨l, hlmem, hl⟩ := hl'
    by_cases hid : l.id = loopId
    · exfalso
      rw [if_pos hid] at hl
      apply hne
      rw [← hl]
      exact hid
    · rw [if_neg hid] at hl
      rw [← hl]
      exact hlmem
  · rw [hstep]
    refine ⟨{ lp with issue := { lp.issue with acceptanceCriteria := lp.issue.acceptanceCriteria.set index (toggledCriterion (lp.issue.acceptanceCriteria.get ⟨index, hidx⟩) now) } }, ?_, hlpid⟩
    simp only [updateLoopIssue, List.mem_map]
    exact ⟨lp, hlpmem, by rw [if_pos hlpid]⟩
  · intro l' hl' hid
    rw [hstep] at hl'
    simp only [updateLoopIssue, List.mem_map] at hl'
    obtain ⟨l, hlmem, hl⟩ := hl'
    by_cases hidl : l.id = loopId
    · have hllp : l = lp := huniq l hlmem hidl
      subst hllp
      rw [if_pos hidl] at hl
      subst hl
      refine ⟨rfl, rfl, rfl, rfl, rfl, rfl, rfl, rfl, rfl, rfl, rfl, rfl,
        rfl, rfl, rfl, rfl, rfl, rfl, ?_, ?_⟩
      · exact List.get?_set_eq_of_lt _ hidx
      · intro j hj
        exact List.get?_set_ne _ _ (fun h => hj h.symm)
    · rw [if_neg hidl] at hl
      exfalso
      apply hidl
      rw [hl]
      exact hid

/-- Witness for C3: a single running loop whose only criterion is
incomplete; toggling it completes all criteria while the status stays
`running`. -/
theorem toggleCriterion_complete_witness :
    (toggleCriterion
        ⟨[⟨str "l1", str "claude", LoopStatus.running,
            ⟨str "u", 1, str "t", str "b", str "r",
              [⟨str "A", false, none, none⟩], [⟨str "A", false, none, none⟩]⟩,
            str "/repo", false, none, none, none, none, false, false, none, none⟩]⟩
        [] (str "T") (str "l1") 0).2
      = [⟨str "T", str "l1", str "system",
          str "Criterion " ++ natToStr (0 + 1) ++ str " marked "
            ++ str "complete" ++ str " by operator"⟩]
    ∧ (∀ l' ∈ (toggleCriterion
        ⟨[⟨str "l1", str "claude", LoopStatus.running,
            ⟨str "u", 1, str "t", str "b", str "r",
              [⟨str "A", false, none, none⟩], [⟨str "A", false, none, none⟩]⟩,
            str "/repo", false, none, none, none, none, false, false, none, none⟩]⟩
        [] (str "T") (str "l1") 0).1.loops, l'.id = str "l1" →
        l'.status = LoopStatus.running ∧ l'.endedAt = none
        ∧ l'.issue.acceptanceCriteria.get? 0
          = some ⟨str "A", true, some CompletedBy.operator, some (str "T")⟩) := by
  have h := toggleCriterion_complete
    ⟨[⟨str "l1", str "claude", LoopStatus.running,
        ⟨str "u", 1, str "t", str "b", str "r",
          [⟨str "A", false, none, none⟩], [⟨str "A", false, none, none⟩]⟩,
        str "/repo", false, none, none, none, none, false, false, none, none⟩]⟩
    [] (str "T") (str "l1") 0
    ⟨str "l1", str "claude", LoopStatus.running,
      ⟨str "u", 1, str "t", str "b", str "r",
        [⟨str "A", false, none, none⟩], [⟨str "A", false, none, none⟩]⟩,
      str "/repo", false, none, none, none, none, false, false, none, none⟩
    (by decide) (by decide) (by decide) (by decide)
  refine ⟨by simpa using h.1, ?_⟩
  intro l' hl' hid
  have h4 := h.2.2.2 l' hl' hid
  exact ⟨h4.1, h4.2.1, by simpa using h4.2.2.2.2.2.2.2.2.2.2.2.2.2.2.2.2.2.2.1⟩

/-- C1 counterexample: with creation-time criteria `["A"` (complete),
`"B"` (incomplete)`]`, the resume prompt numbers `B` as `1. B` — its
position in the filtered remaining list — not `2. B`, its 1-indexed
position in the criterion list captured at loop creation (the indexing
the initial prompt tells the agent to use).  The prompt contains
`"1. B"` and does not contain `"2. B"`. -/
theorem buildResumePrompt_numbering_cex :
    remainingCriteriaOf
        [⟨str "A", true, some CompletedBy.operator, some (str "t")⟩,
         ⟨str "B", false, none, none⟩] = [str "B"]
    ∧ numberedLines [str "B"] = [str "1. B"]
    ∧ creationIndexedLines
        [⟨str "A", true, some CompletedBy.operator, some (str "t")⟩,
         ⟨str "B", false, none, none⟩] = [str "2. B"]
    ∧ numberedLines (remainingCriteriaOf
        [⟨str "A", true, some CompletedBy.operator, some (str "t")⟩,
         ⟨str "B", false, none, none⟩])
      ≠ creationIndexedLines
        [⟨str "A", true, some CompletedBy.operator, some (str "t")⟩,
         ⟨str "B", false, none, none⟩]
    ∧ containsSub (buildResumePrompt (str "S") (remainingCriteriaOf
        [⟨str "A", true, some CompletedBy.operator, some (str "t")⟩,
         ⟨str "B", false, none, none⟩])) (str "1. B") = true
    ∧ containsSub (buildResumePrompt (str "S") (remainingCriteriaOf
        [⟨str "A", true, some CompletedBy.operator, some (str "t")⟩,
         ⟨str "B", false, none, none⟩])) (str "2. B") = false := by
  refine ⟨by decide, by decide, by decide, by decide, by decide, by decide⟩

/-- C1 (amended): the resume prompt renders the summary followed by
exactly the still-incomplete criteria in stored order, each numbered by
its 1-indexed position within the remaining-criteria list (not within
the creation-time list). -/
theorem buildResumePrompt_amended (summary : Str) (criteria : List AcceptanceCriterion)
    (h : ¬remainingCriteriaOf criteria = []) :
    buildResumePrompt summary (remainingCriteriaOf criteria)
      = resumePromptPrefix ++ summary ++ resumePromptMid
        ++ joinWith (str "\n") (numberedLines (remainingCriteriaOf criteria))
        ++ resumePromptSuffix
    ∧ remainingCriteriaOf criteria
        = (criteria.filter (fun c => !c.completed)).map (fun c => c.text)
    ∧ ∀ j, (numberedLines (remainingCriteriaOf criteria)).get? j
        = ((remainingCriteriaOf criteria).get? j).map
            (fun t => natToStr (j + 1) ++ str ". " ++ t) := by
  refine ⟨?_, rfl, ?_⟩
  · unfold buildResumePrompt criteriaListOf
    rw [if_pos]
    simpa [List.length_pos] using h
  · intro j
    unfold numberedLines
    rw [List.get?_map, List.get?_enum]
    cases (remainingCriteriaOf criteria).get? j <;> rfl

/-- Witness for C1 (amended) at a two-criterion list with the first one
completed. -/
theorem buildResumePrompt_amended_witness :
    buildResumePrompt (str "S") (remainingCriteriaOf
        [⟨str "A", true, some CompletedBy.operator, some (str "t")⟩,
         ⟨str "B", false, none, none⟩])
      = resumePromptPrefix ++ str "S" ++ resumePromptMid
        ++ joinWith (str "\n") (numberedLines (remainingCriteriaOf
            [⟨str "A", true, some CompletedBy.operator, some (str "t")⟩,
             ⟨str "B", false, none, none⟩]))
        ++ resumePromptSuffix :=
  (buildResumePrompt_amended (str "S")
    [⟨str "A", true, some CompletedBy.operator, some (str "t")⟩,
     ⟨str "B", false, none, none⟩] (by decide)).1

theorem checkboxCriterion_by (l : Str) (c : AcceptanceCriterion)
    (h : checkboxCriterion l = some c) :
    c.completedBy = (if c.completed = true then some CompletedBy.operator else none)
    ∧ c.completedAt = none := by
  unfold checkboxCriterion at h
  repeat' split at h
  all_goals first
    | exact Option.noConfusion h
    | (injection h with h2; subst h2; simp <;> simp_all)
    | simp_all

theorem bulletCriterion_by (l : Str) (c : AcceptanceCriterion)
    (h : bulletCriterion l = some c) :
    c.completedBy = (if c.completed = true then some CompletedBy.operator else none)
    ∧ c.completedAt = none := by
  unfold bulletCriterion at h
  repeat' split at h
  all_goals first
    | exact Option.noConfusion h
    | (injection h with h2; subst h2; simp <;> simp_all)
    | simp_all

theorem parseIn_by :
    ∀ lines, ∀ c ∈ parseIn lines,
      c.completedBy = (if c.completed = true then some CompletedBy.operator else none)
      ∧ c.completedAt = none
  | [], c, hc => absurd hc (by simp [parseIn])
  | l :: rest, c, hc => by
    unfold parseIn at hc
    split at hc
    · exact absurd hc (by simp)
    · split at hc
      · rename_i cb hcb
        rcases List.mem_cons.mp hc with h | h
        · exact h ▸ checkboxCriterion_by l cb hcb
        · exact parseIn_by rest c h
      · split at hc
        · rename_i bl hbl
          rcases List.mem_cons.mp hc with h | h
          · exact h ▸ bulletCriterion_by l bl hbl
          · exact parseIn_by rest c h
        · exact parseIn_by rest c hc

theorem parsePre_by :
    ∀ lines, ∀ c ∈ parsePre lines,
      c.completedBy = (if c.completed = true then some CompletedBy.operator else none)
      ∧ c.completedAt = none
  | [], c, hc => absurd hc (by simp [parsePre])
  | l :: rest, c, hc => by
    unfold parsePre at hc
    split at hc
    · exact parseIn_by rest c hc
    · exact parsePre_by rest c hc

theorem parsePre_nil :
    ∀ lines, (∀ l ∈ lines, isSectionHeaderLine (jsTrim l) = false) → parsePre lines = []
  | [], _ => by simp [parsePre]
  | l :: rest, h => by
    unfold parsePre
    rw [if_neg (by simp [h l (by simp)])]
    exact parsePre_nil rest (fun x hx => h x (by simp [hx]))

/-- C9: when no line of the body matches a recognised
acceptance-criteria section header, `parseAcceptanceCriteria` falls
back to collecting every checkbox line found anywhere in the body; and
every parsed criterion — from a section or from the fallback — carries
`completed = true` exactly when it was a checked box, in which case
`completedBy = 'operator'`. -/
theorem parseAcceptanceCriteria_fallback (body : Str) :
    ((∀ l ∈ splitNl body, isSectionHeaderLine (jsTrim l) = false) →
      parseAcceptanceCriteria body = (splitNl body).filterMap checkboxCriterion)
    ∧ ∀ c ∈ parseAcceptanceCriteria body,
        (c.completed = true ↔ c.completedBy = some CompletedBy.operator) := by
  constructor
  · intro h
    simp only [parseAcceptanceCriteria]
    rw [parsePre_nil (splitNl body) h]
    simp
  · intro c hc
    have hby : c.completedBy = (if c.completed = true then some CompletedBy.operator else none) := by
      simp only [parseAcceptanceCriteria] at hc
      split at hc
      · obtain ⟨l, _, hl⟩ := List.mem_filterMap.mp hc
        exact (checkboxCriterion_by l c hl).1
      · exact (parsePre_by (splitNl body) c hc).1
    constructor
    · intro hcomp
      rw [hby, if_pos hcomp]
    · intro hop
      by_contra hncomp
      rw [hby, if_neg hncomp] at hop
      exact Option.noConfusion hop

/-- Witness for C9 on a body with no recognised header and one checked
and one unchecked box. -/
theorem parseAcceptanceCriteria_fallback_witness :
    parseAcceptanceCriteria (str "intro\n- [x] Done\nmiddle\n- [ ] Open")
      = (splitNl (str "intro\n- [x] Done\nmiddle\n- [ ] Open")).filterMap checkboxCriterion
    ∧ parseAcceptanceCriteria (str "intro\n- [x] Done\nmiddle\n- [ ] Open")
      = [⟨str "Done", true, some CompletedBy.operator, none⟩,
         ⟨str "Open", false, none, none⟩] :=
  ⟨(parseAcceptanceCriteria_fallback (str "intro\n- [x] Done\nmiddle\n- [ ] Open")).1
    (by decide), by decide⟩

theorem takeRight_zero {α : Type} (l : List α) : takeRight 0 l = [] := by
  simp [takeRight, List.drop_length]

theorem takeRight_nil {α : Type} (n : Nat) : takeRight n ([] : List α) = [] := by
  simp [takeRight]

theorem takeRight_length_le {α : Type} (n : Nat) (l : List α) :
    (takeRight n l).length ≤ n := by
  simp only [takeRight, List.length_drop]
  omega

theorem takeRight_concat {α : Type} (k : Nat) (hk : 1 ≤ k) (xs : List α) (e : α) :
    takeRight k (xs ++ [e]) = takeRight (k - 1) xs ++ [e] := by
  unfold takeRight
  have h1 : (xs ++ [e]).length - k = xs.length - (k - 1) := by
    simp only [List.length_append, List.length_singleton]
    omega
  rw [h1, List.drop_append_of_le_length (by omega)]

theorem collectTail_eq :
    ∀ (rl : List Str) (count : Nat) (acc : List Json), acc.length ≤ count →
      collectTail rl count acc
        = takeRight (count - acc.length) (rl.reverse.filterMap jsonParse) ++ acc
  | [], count, acc, _ => by simp [collectTail, takeRight_nil]
  | l :: rl, count, acc, h => by
    unfold collectTail
    by_cases hlt : acc.length < count
    · rw [if_pos hlt]
      cases hp : jsonParse l with
      | none =>
        rw [collectTail_eq rl count acc h]
        simp [List.reverse_cons, List.filterMap_append, hp]
      | some e =>
        change collectTail rl count (e :: acc) = _
        rw [collectTail_eq rl count (e :: acc) (by simpa using hlt)]
        rw [List.reverse_cons, List.filterMap_append]
        have hfm : List.filterMap jsonParse [l] = [e] := by simp [hp]
        rw [hfm, takeRight_concat (count - acc.length) (by omega) _ e]
        have harith : count - acc.length - 1 = count - (e :: acc).length := by
          simp only [List.length_cons]
          omega
        rw [harith]
        simp
    · rw [if_neg hlt]
      have h0 : count - acc.length = 0 := by omega
      rw [h0, takeRight_zero]
      simp

theorem lastChunk_idem (content : Str) (count : Nat) :
    lastChunk (lastChunk content count) count = lastChunk content count := by
  unfold lastChunk
  have hlen : (content.drop (content.length - min content.length (count * 500))).length
      = min content.length (count * 500) := by
    rw [List.length_drop]
    omega
  rw [hlen]
  have hmin : min (min content.length (count * 500)) (count * 500)
      = min content.length (count * 500) := by omega
  rw [hmin]
  simp

/-- C5 (amended): `readRecent` depends only on the last
`min(fileSize, 500·N)` bytes of the file; it returns the last at most
`N` JSON-parseable lines of that chunk, in original file order.  The
leading partial line of the chunk is discarded only because (and only
when) it fails to parse as JSON — see the counterexample for a partial
line that parses and is returned. -/
theorem readRecentLogs_amended (content : Str) (count : Nat) :
    readRecentLogs (some content) count = readRecentLogs (some (lastChunk content count)) count
    ∧ (readRecentLogs (some content) count).length ≤ count
    ∧ readRecentLogs (some content) count
        = takeRight count
            (((splitNl (lastChunk content count)).filter (fun l => ¬l = [])).filterMap jsonParse) := by
  have hmain : readRecentLogs (some content) count
      = takeRight count
          (((splitNl (lastChunk content count)).filter (fun l => ¬l = [])).filterMap jsonParse) := by
    by_cases hnil : content.length = 0
    · have hc : content = [] := by simpa using hnil
      subst hc
      simp only [readRecentLogs, lastChunk]
      norm_num
      rw [show splitNl ([] : Str) = [[]] from rfl]
      simp [takeRight_nil]
    · simp only [readRecentLogs, if_neg hnil]
      rw [collectTail_eq _ count [] (by simp)]
      simp
  refine ⟨?_, ?_, hmain⟩
  · rw [hmain]
    by_cases hnil : (lastChunk content count).length = 0
    · simp only [readRecentLogs, if_pos hnil]
      have hc : lastChunk content count = [] := by simpa using hnil
      rw [hc]
      rw [show splitNl ([] : Str) = [[]] from rfl]
      simp [takeRight_nil]
    · simp only [readRecentLogs, if_neg hnil]
      rw [collectTail_eq _ count [] (by simp)]
      rw [lastChunk_idem]
      simp
  · rw [hmain]
    exact takeRight_length_le count _

/-- Witness for C5 (amended) on a two-line file. -/
theorem readRecentLogs_amended_witness :
    readRecentLogs (some (str "{}\n{}\n")) 1
      = takeRight 1
          (((splitNl (lastChunk (str "{}\n{}\n") 1)).filter (fun l => ¬l = [])).filterMap jsonParse) :=
  (readRecentLogs_amended (str "{}\n{}\n") 1).2.2

theorem splitNl_line_append (line rest : Str) (h : '\n' ∉ line) :
    splitNl (line ++ '\n' :: rest) = line :: splitNl rest := by
  induction line with
  | nil =>
    show splitNl ('\n' :: rest) = [] :: splitNl rest
    simp [splitNl]
  | cons c cs ih =>
    have hc : ¬c = '\n' := fun hc => h (by simp [hc])
    have hcs : '\n' ∉ cs := fun hm => h (by simp [hm])
    show splitNl (c :: (cs ++ '\n' :: rest)) = (c :: cs) :: splitNl rest
    rw [show splitNl (c :: (cs ++ '\n' :: rest))
        = if c = '\n' then [] :: splitNl (cs ++ '\n' :: rest)
          else match splitNl (cs ++ '\n' :: rest) with
            | [] => [[c]]
            | p :: ps => (c :: p) :: ps
      from by rw [splitNl]]
    rw [if_neg hc, ih hcs]

theorem escStr_all_plain (s : Str) (h : ∀ c ∈ s, escChar c = [c]) : escStr s = s := by
  induction s with
  | nil => rfl
  | cons c cs ih =>
    have : escStr (c :: cs) = escChar c ++ escStr cs := by simp [escStr]
    rw [this, h c (by simp), ih (fun x hx => h x (by simp [hx]))]
    rfl

theorem jsonParse_renderStr_top (s : Str) :
    jsonParse (renderStr s) = some (Json.val (JVal.str s)) := by
  have h : renderStr s = '"' :: (escStr s ++ '"' :: []) := by simp [renderStr]
  rw [h, jsonParse_unfold, skipJWs_quote]
  have hv : parseJVal ('"' :: (escStr s ++ '"' :: []))
      = (parseStringBody (escStr s ++ '"' :: [])).map (fun p => (JVal.str p.1, p.2)) := rfl
  simp [show (('"' : Char) = '{') = False from by simp, hv, parseStringBody_escStr, skipJWs]

/-- The 996-byte second line of the counterexample file: a JSON string
literal of 994 `a`s. -/
def cexChunkLine : Str := '"' :: List.replicate 994 'a' ++ ['"']

/-- The counterexample file: first line `ab12`, then `cexChunkLine`,
newline-terminated — 1002 bytes, so for `N = 2` the 1000-byte chunk
starts in the middle of the first line, leaving the partial line `12`. -/
def cexFile : Str := str "ab12\n" ++ cexChunkLine ++ ['\n']

/-- C5 counterexample: `readRecentLogs` with `N = 2` on `cexFile`
returns the JSON number `12` parsed from the chunk's leading partial
line `"12"` — a strict suffix of the file line `ab12`, not a complete
line of the file — so the leading partial line is not discarded and not
every entry comes from a complete line. -/
theorem readRecentLogs_partial_line_cex :
    readRecentLogs (some cexFile) 2
      = [Json.val (JVal.int 12), Json.val (JVal.str (List.replicate 994 'a'))]
    ∧ ¬ str "12" ∈ (splitNl cexFile).dropLast
    ∧ jsonParse (str "12") = some (Json.val (JVal.int 12)) := by
  have hline : cexChunkLine = renderStr (List.replicate 994 'a') := by
    unfold cexChunkLine renderStr
    rw [escStr_all_plain (List.replicate 994 'a')
      (fun c hc => by rw [List.eq_of_mem_replicate hc]; rfl)]
  have hnlline : '\n' ∉ cexChunkLine := by
    unfold cexChunkLine
    intro hm
    rcases List.mem_cons.mp hm with h | h
    · exact absurd h (by decide)
    · rcases List.mem_append.mp h with h | h
      · exact absurd (List.eq_of_mem_replicate h) (by decide)
      · exact absurd (by simpa using h) (by decide : ¬('\n' : Char) = '"')
  have h1 : cexFile = ['a', 'b', '1', '2'] ++ '\n' :: (cexChunkLine ++ '\n' :: []) := by
    unfold cexFile
    rw [show str "ab12\n" = ['a', 'b', '1', '2'] ++ ['\n'] from rfl]
    simp
  have hsplitFile : splitNl cexFile = ['a', 'b', '1', '2'] :: cexChunkLine :: [[]] := by
    rw [h1, splitNl_line_append _ _ (by decide),
      splitNl_line_append _ _ hnlline]
    rfl
  have hlen : cexFile.length = 1002 := by
    rw [h1]
    simp [cexChunkLine]
  have hdrop : cexFile.drop 2 = ['1', '2'] ++ '\n' :: (cexChunkLine ++ '\n' :: []) := by
    rw [h1]
    rfl
  have hchunk : lastChunk cexFile 2 = ['1', '2'] ++ '\n' :: (cexChunkLine ++ '\n' :: []) := by
    unfold lastChunk
    rw [hlen]
    norm_num
    exact hdrop
  have hsplitChunk : splitNl (lastChunk cexFile 2) = ['1', '2'] :: cexChunkLine :: [[]] := by
    rw [hchunk, splitNl_line_append _ _ (by decide),
      splitNl_line_append _ _ hnlline]
    rfl
  have hp12 : jsonParse ['1', '2'] = some (Json.val (JVal.int 12)) := by decide
  have hpline : jsonParse cexChunkLine = some (Json.val (JVal.str (List.replicate 994 'a'))) := by
    rw [hline]
    exact jsonParse_renderStr_top _
  have hne : ¬cexChunkLine = [] := by
    unfold cexChunkLine
    simp
  refine ⟨?_, ?_, by decide⟩
  · have hnz : ¬cexFile.length = 0 := by rw [hlen]; decide
    simp only [readRecentLogs, if_neg hnz]
    rw [hsplitChunk]
    rw [show (([['1', '2'], cexChunkLine, []] : List Str).filter (fun l => ¬l = []))
        = [['1', '2'], cexChunkLine] from by simp [hne]]
    rw [collectTail_eq _ 2 [] (by simp)]
    rw [List.reverse_reverse]
    rw [show List.filterMap jsonParse [['1', '2'], cexChunkLine]
        = [Json.val (JVal.int 12), Json.val (JVal.str (List.replicate 994 'a'))] from by
      simp [hp12, hpline]]
    rfl
  · rw [hsplitFile]
    intro hm
    simp only [List.dropLast] at hm
    rcases List.mem_cons.mp hm with h | h
    · exact absurd h (by decide)
    · rcases List.mem_cons.mp h with h | h
      · rw [hline] at h
        have : (str "12").length = (renderStr (List.replicate 994 'a')).length := by rw [h]
        rw [show renderStr (List.replicate 994 'a')
            = '"' :: (List.replicate 994 'a' ++ ['"']) from by
          rw [← hline]; rfl] at this
        simp [str] at this
      · simp at h

theorem nl_not_mem_escChar (c : Char) : '\n' ∉ escChar c := by
  unfold escChar
  split
  · decide
  · split
    · decide
    · split
      · decide
      · split
        · decide
        · split
          · decide
          · rename_i h1 h2 h3 h4 h5
            simp only [List.mem_singleton]
            exact fun hm => h3 hm.symm

theorem nl_not_mem_escStr (s : Str) : '\n' ∉ escStr s := by
  induction s with
  | nil => simp [escStr]
  | cons c cs ih =>
    rw [show escStr (c :: cs) = escChar c ++ escStr cs from by simp [escStr]]
    intro hm
    rcases List.mem_append.mp hm with h | h
    · exact nl_not_mem_escChar c h
    · exact ih h

theorem nl_not_mem_renderStr (s : Str) : '\n' ∉ renderStr s := by
  unfold renderStr
  intro hm
  rcases List.mem_cons.mp hm with h | h
  · exact absurd h (by decide)
  · rcases List.mem_append.mp h with h | h
    · exact nl_not_mem_escStr s h
    · exact absurd (by simpa using h) (by decide : ¬('\n' : Char) = '"')

theorem nl_not_mem_stringifyEntry (e : LogEntry) : '\n' ∉ stringifyEntry e := by
  unfold stringifyEntry renderObj entryMembers
  intro hm
  rcases List.mem_cons.mp hm with h | h
  · exact absurd h (by decide)
  · rcases List.mem_append.mp h with h | h
    · rw [show renderMembers [(str "timestamp", JVal.str e.timestamp), (str "loopId", JVal.str e.loopId), (str "type", JVal.str e.type), (str "content", JVal.str e.content)] = renderMember (str "timestamp", JVal.str e.timestamp) ++ ',' :: (renderMember (str "loopId", JVal.str e.loopId) ++ ',' :: (renderMember (str "type", JVal.str e.type) ++ ',' :: renderMember (str "content", JVal.str e.content))) from by simp [renderMembers]] at h
      have hmem : ∀ (k t : Str), '\n' ∉ renderMember (k, JVal.str t) := by
        intro k t hmm
        unfold renderMember renderJVal at hmm
        rcases List.mem_append.mp hmm with h2 | h2
        · exact nl_not_mem_renderStr k h2
        · rcases List.mem_cons.mp h2 with h2 | h2
          · exact absurd h2 (by decide)
          · exact nl_not_mem_renderStr t h2
      rcases List.mem_append.mp h with h | h
      · exact hmem _ _ h
      · rcases List.mem_cons.mp h with h | h
        · exact absurd h (by decide)
        · rcases List.mem_append.mp h with h | h
          · exact hmem _ _ h
          · rcases List.mem_cons.mp h with h | h
            · exact absurd h (by decide)
            · rcases List.mem_append.mp h with h | h
              · exact hmem _ _ h
              · rcases List.mem_cons.mp h with h | h
                · exact absurd h (by decide)
                · exact hmem _ _ h
    · exact absurd (by simpa using h) (by decide : ¬('\n' : Char) = '}')

theorem splitParts_no_nl (s : Str) (h : '\n' ∉ s) : splitParts s = ([], s) := by
  induction s with
  | nil => rfl
  | cons c cs ih =>
    have hc : ¬c = '\n' := fun hc => h (by simp [hc])
    exact splitParts_cons_of_nil hc (ih (fun hm => h (by simp [hm])))

theorem nl_not_mem_partialLine (s : Str) : '\n' ∉ partialLine s := by
  induction s with
  | nil => simp [partialLine, splitParts]
  | cons c cs ih =>
    by_cases hc : c = '\n'
    · subst hc
      rw [show partialLine ('\n' :: cs) = partialLine cs from by
        simp [partialLine, splitParts_cons_nl]]
      exact ih
    · cases hp : splitParts cs with
      | mk cl pl =>
        cases cl with
        | nil =>
          rw [show partialLine (c :: cs) = c :: pl from by
            simp [partialLine, splitParts_cons_of_nil hc hp]]
          intro hm
          rcases List.mem_cons.mp hm with h | h
          · exact hc h.symm
          · exact ih (by simpa [partialLine, hp] using h)
        | cons l ls =>
          rw [show partialLine (c :: cs) = pl from by
            simp [partialLine, splitParts_cons_of_cons hc hp]]
          intro hm
          exact ih (by simpa [partialLine, hp] using hm)

theorem splitParts_concat_nl (w : Str) (h : '\n' ∉ w) :
    splitParts (w ++ ['\n']) = ([w], []) := by
  induction w with
  | nil => rfl
  | cons c cs ih =>
    have hc : ¬c = '\n' := fun hc => h (by simp [hc])
    rw [List.cons_append]
    exact splitParts_cons_of_cons hc (ih (fun hm => h (by simp [hm])))

theorem partialLine_of_last_nl (q : Str) (h : q = [] ∨ q.getLast? = some '\n') :
    partialLine q = [] := by
  rcases h with h | h
  · subst h
    rfl
  · have hne : q ≠ [] := by
      intro hq
      rw [hq] at h
      exact Option.noConfusion h
    have hq : q = q.dropLast ++ ['\n'] := by
      conv_lhs => rw [← List.dropLast_append_getLast hne]
      rw [List.getLast?_eq_getLast q hne] at h
      rw [Option.some_inj.mp h]
    rw [hq, partialLine, splitParts_append]
    rw [splitParts_concat_nl _ (nl_not_mem_partialLine _)]

theorem dropWhile_last_nl (p : Str) (h : p.getLast? = some '\n') :
    p.dropWhile wsChar = [] ∨ (p.dropWhile wsChar).getLast? = some '\n' := by
  induction p with
  | nil => exact Or.inl rfl
  | cons c cs ih =>
    rw [List.dropWhile_cons]
    by_cases hw : wsChar c = true
    · rw [if_pos hw]
      cases cs with
      | nil =>
        left
        have : c = '\n' := by simpa using h
        rfl
      | cons d ds =>
        exact ih (by rwa [List.getLast?_cons_cons] at h)
    · rw [if_neg hw]
      right
      cases cs with
      | nil =>
        have hc : c = '\n' := by simpa using h
        subst hc
        exact absurd (by decide : wsChar '\n' = true) hw
      | cons d ds => rwa [List.getLast?_cons_cons] at h

theorem jsTrim_wrap (p inner : Str) :
    jsTrim (p ++ ('{' :: (inner ++ ['}', '\n'])))
      = p.dropWhile wsChar ++ ('{' :: (inner ++ ['}'])) := by
  unfold jsTrim
  have h1 : (p ++ ('{' :: (inner ++ ['}', '\n']))).dropWhile wsChar
      = p.dropWhile wsChar ++ ('{' :: (inner ++ ['}', '\n'])) := by
    rw [List.dropWhile_append]
    have h2 : (('{' :: (inner ++ ['}', '\n'])) : Str).dropWhile wsChar
        = '{' :: (inner ++ ['}', '\n']) := by
      rw [List.dropWhile_cons, if_neg (by decide)]
    split
    · rename_i hemp
      rw [h2]
      have : p.dropWhile wsChar = [] := by simpa using hemp
      rw [this]
      rfl
    · rfl
  rw [h1]
  have h3 : (p.dropWhile wsChar ++ ('{' :: (inner ++ ['}', '\n']))).reverse
      = '\n' :: ('}' :: (inner.reverse ++ ('{' :: (p.dropWhile wsChar).reverse))) := by
    simp
  rw [h3, List.dropWhile_cons, if_pos (by decide), List.dropWhile_cons, if_neg (by decide)]
  simp

/-- C7: after `append(loopId, entry)` returns, `readAll(loopId)` parses
a list that includes the appended entry, stamped with its timestamp and
loopId.  The hypothesis is the journal invariant that the prior file
content — written only by `appendLog`, which terminates every record
with a newline — is empty (or the file absent) or newline-terminated. -/
theorem appendLog_readLogs_durable (prior : Option Str) (now loopId : Str) (b : EntryBody)
    (h : prior.getD [] = [] ∨ (prior.getD []).getLast? = some '\n') :
    entryJson ⟨now, loopId, b.type, b.content⟩
      ∈ readLogs (some (appendLogContent prior now loopId b)) := by
  have hshape : stringifyEntry ⟨now, loopId, b.type, b.content⟩
      = '{' :: (renderMembers (entryMembers ⟨now, loopId, b.type, b.content⟩) ++ ['}']) := by
    simp [stringifyEntry, renderObj]
  have hcontent : appendLogContent prior now loopId b
      = prior.getD []
        ++ ('{' :: (renderMembers (entryMembers ⟨now, loopId, b.type, b.content⟩) ++ ['}', '\n'])) := by
    unfold appendLogContent
    rw [hshape]
    simp
  have htrim : jsTrim (appendLogContent prior now loopId b)
      = (prior.getD []).dropWhile wsChar
        ++ stringifyEntry ⟨now, loopId, b.type, b.content⟩ := by
    rw [hcontent, jsTrim_wrap, hshape]
  have hq : partialLine ((prior.getD []).dropWhile wsChar) = [] := by
    apply partialLine_of_last_nl
    rcases h with h | h
    · left
      rw [h]
      rfl
    · exact dropWhile_last_nl _ h
  have hpl : partialLine (jsTrim (appendLogContent prior now loopId b))
      = stringifyEntry ⟨now, loopId, b.type, b.content⟩ := by
    rw [htrim, partialLine_append, hq]
    rw [show ([] : Str) ++ stringifyEntry ⟨now, loopId, b.type, b.content⟩
        = stringifyEntry ⟨now, loopId, b.type, b.content⟩ from rfl]
    rw [partialLine, splitParts_no_nl _ (nl_not_mem_stringifyEntry _)]
  have hmem : stringifyEntry ⟨now, loopId, b.type, b.content⟩
      ∈ splitNl (jsTrim (appendLogContent prior now loopId b)) := by
    rw [splitNl_eq_parts]
    apply List.mem_append_right
    rw [show (splitParts (jsTrim (appendLogContent prior now loopId b))).2
        = partialLine (jsTrim (appendLogContent prior now loopId b)) from rfl]
    rw [hpl]
    exact List.mem_singleton.mpr rfl
  have hne : ¬stringifyEntry ⟨now, loopId, b.type, b.content⟩ = [] := by
    rw [hshape]
    simp
  have hparse : jsonParse (stringifyEntry ⟨now, loopId, b.type, b.content⟩)
      = some (entryJson ⟨now, loopId, b.type, b.content⟩) := by
    unfold stringifyEntry entryJson
    apply jsonParse_renderObj
    · simp [entryMembers]
    · intro m hm
      simp only [entryMembers, List.mem_cons, List.not_mem_nil, or_false] at hm
      rcases hm with h1 | h1 | h1 | h1
      · exact ⟨_, by rw [h1]⟩
      · exact ⟨_, by rw [h1]⟩
      · exact ⟨_, by rw [h1]⟩
      · exact ⟨_, by rw [h1]⟩
  simp only [readLogs]
  apply List.mem_filterMap.mpr
  refine ⟨stringifyEntry ⟨now, loopId, b.type, b.content⟩, ?_, hparse⟩
  apply List.mem_filter.mpr
  exact ⟨hmem, by simpa using hne⟩

/-- Witness for C7: appending to an empty journal. -/
theorem appendLog_readLogs_durable_witness :
    entryJson ⟨str "T", str "l1", str "agent", str "hi"⟩
      ∈ readLogs (some (appendLogContent none (str "T") (str "l1")
          ⟨str "agent", str "hi"⟩)) :=
  appendLog_readLogs_durable none (str "T") (str "l1") ⟨str "agent", str "hi"⟩
    (Or.inl rfl)

/-- The bytes appended by writing each record as one newline-terminated
line. -/
def joinRecords (records : List Str) : Str :=
  records.foldr (fun r acc => r ++ '\n' :: acc) []

/-- The entries `pollTick` delivers for a list of complete lines:
non-blank lines that parse. -/
def deliverOf (ls : List Str) : List Json :=
  ls.filterMap (fun l => if ¬jsTrim l = [] then jsonParse l else none)

theorem splitParts_line_append (line rest : Str) (h : '\n' ∉ line) :
    splitParts (line ++ '\n' :: rest) = (line :: (splitParts rest).1, (splitParts rest).2) := by
  induction line with
  | nil => exact splitParts_cons_nl rest
  | cons c cs ih =>
    have hc : ¬c = '\n' := fun hc => h (by simp [hc])
    rw [List.cons_append]
    have ih2 := ih (fun hm => h (by simp [hm]))
    cases hp : splitParts rest with
    | mk cl pl =>
      rw [hp] at ih2
      exact splitParts_cons_of_cons hc (by rw [ih2])

theorem splitParts_joinRecords (records : List Str) (pt : Str)
    (hr : ∀ r ∈ records, '\n' ∉ r) (hpt : '\n' ∉ pt) :
    splitParts (joinRecords records ++ pt) = (records, pt) := by
  induction records with
  | nil =>
    rw [show joinRecords [] = [] from rfl, List.nil_append]
    exact splitParts_no_nl pt hpt
  | cons r rs ih =>
    rw [show joinRecords (r :: rs) = r ++ '\n' :: joinRecords rs from rfl]
    rw [List.append_assoc, show ('\n' :: joinRecords rs) ++ pt = '\n' :: (joinRecords rs ++ pt) from rfl]
    rw [splitParts_line_append _ _ (hr r (by simp))]
    rw [ih (fun x hx => hr x (by simp [hx]))]

theorem deliverOf_parseable (records : List Str)
    (h : ∀ r ∈ records, ¬jsTrim r = []) :
    deliverOf records = records.filterMap jsonParse := by
  induction records with
  | nil => rfl
  | cons r rs ih =>
    unfold deliverOf at *
    rw [List.filterMap_cons, List.filterMap_cons, if_pos (h r (by simp))]
    rw [ih (fun x hx => h x (by simp [hx]))]

theorem filterMap_length_of_isSome {α β : Type} (f : α → Option β) :
    ∀ (l : List α), (∀ x ∈ l, (f x).isSome) → (l.filterMap f).length = l.length
  | [], _ => rfl
  | x :: xs, h => by
    rw [List.filterMap_cons]
    cases hf : f x with
    | none =>
      have := h x (by simp)
      rw [hf] at this
      exact absurd this (by simp)
    | some b =>
      simp only [List.length_cons]
      rw [filterMap_length_of_isSome f xs (fun y hy => h y (by simp [hy]))]

theorem pollTick_grow (c0 d0 e : Str) (he : ¬e = []) :
    pollTick (c0 ++ (d0 ++ e)) ⟨(c0 ++ d0).length, partialLine d0⟩
      = (⟨(c0 ++ (d0 ++ e)).length, partialLine (d0 ++ e)⟩,
         deliverOf (completeLines (partialLine d0 ++ e))) := by
  have hpos : 0 < e.length := List.length_pos.mpr he
  have hlen : (c0 ++ (d0 ++ e)).length > (c0 ++ d0).length := by
    simp only [List.length_append]
    omega
  have hdrop : (c0 ++ (d0 ++ e)).drop (c0 ++ d0).length = e := by
    rw [show c0 ++ (d0 ++ e) = (c0 ++ d0) ++ e from by simp]
    exact List.drop_left _ _
  simp only [pollTick, if_pos hlen, hdrop]
  rw [splitNl_dropLast, splitNl_getLastD]
  rw [show partialLine (partialLine d0 ++ e) = partialLine (d0 ++ e) from
    (partialLine_append d0 e).symm]
  exact rfl

theorem pollTick_same (c : Str) (s : TailState) (h : c.length = s.position) :
    pollTick c s = (s, []) := by
  simp only [pollTick, h]
  rw [if_neg (by omega), if_neg (by omega)]

theorem runPolls_invariant :
    ∀ (cs : List Str) (c0 d0 dn : Str),
      List.Chain' (· <+: ·) ((c0 ++ d0) :: cs) →
      ((c0 ++ d0) :: cs).getLast (by simp) = c0 ++ dn →
      (runPolls cs ⟨(c0 ++ d0).length, partialLine d0⟩).1
          = ⟨(c0 ++ dn).length, partialLine dn⟩
        ∧ deliverOf (completeLines d0)
            ++ (runPolls cs ⟨(c0 ++ d0).length, partialLine d0⟩).2
          = deliverOf (completeLines dn)
  | [], c0, d0, dn, _, hlast => by
    have hd : d0 = dn := by
      have h := hlast
      rw [List.getLast_singleton] at h
      exact List.append_cancel_left h
    subst hd
    simp [runPolls]
  | c :: cs, c0, d0, dn, hchain, hlast => by
    have h1 : (c0 ++ d0) <+: c := (List.chain'_cons.mp hchain).1
    have h2 : List.Chain' (· <+: ·) (c :: cs) := (List.chain'_cons.mp hchain).2
    obtain ⟨e, he⟩ := h1
    have hc : c = c0 ++ (d0 ++ e) := by rw [← he]; simp
    have hlast2 : (c :: cs).getLast (by simp) = c0 ++ dn := by
      rw [← hlast]
      exact (List.getLast_cons (by simp)).symm
    by_cases hee : e = []
    · subst hee
      have hceq : c = c0 ++ d0 := by rw [hc]; simp
      show ((runPolls (c :: cs) ⟨(c0 ++ d0).length, partialLine d0⟩).1 = _) ∧ _
      have htick : pollTick c ⟨(c0 ++ d0).length, partialLine d0⟩
          = (⟨(c0 ++ d0).length, partialLine d0⟩, []) := by
        rw [hceq]
        exact pollTick_same _ _ rfl
      have ih := runPolls_invariant cs c0 d0 dn (by rwa [hceq] at h2)
        (by rwa [hceq] at hlast2)
      constructor
      · show (runPolls (c :: cs) _).1 = _
        simp only [runPolls, htick]
        exact ih.1
      · simp only [runPolls, htick]
        simpa using ih.2
    · have htick := pollTick_grow c0 d0 e hee
      have ih := runPolls_invariant cs c0 (d0 ++ e) dn (by rwa [hc] at h2)
        (by rwa [hc] at hlast2)
      constructor
      · simp only [runPolls, hc, htick]
        exact ih.1
      · simp only [runPolls, hc, htick]
        rw [← List.append_assoc]
        rw [show deliverOf (completeLines d0) ++ deliverOf (completeLines (partialLine d0 ++ e))
            = deliverOf (completeLines (d0 ++ e)) from by
          rw [completeLines_append d0 e]
          simp only [deliverOf, List.filterMap_append]]
        exact ih.2

/-- C4: if after `tail` starts the log grows only by `k` complete
newline-terminated JSON records followed by a partially written last
line, then across any monotone sequence of polls reaching the final
content the tailer delivers exactly those `k` records, parsed, in
append order, and the partial last line is never delivered — it stays
in the line buffer. -/
theorem tailLog_delivery (c0 partTail : Str) (records : List Str) (cs : List Str)
    (hchain : List.Chain' (· <+: ·) (c0 :: cs))
    (hlast : (c0 :: cs).getLast (by simp) = c0 ++ (joinRecords records ++ partTail))
    (hrec : ∀ r ∈ records, '\n' ∉ r ∧ ¬jsTrim r = [] ∧ (jsonParse r).isSome)
    (hpt : '\n' ∉ partTail) :
    (runPolls cs (initTailState c0)).2 = records.filterMap jsonParse
    ∧ (runPolls cs (initTailState c0)).2.length = records.length
    ∧ (runPolls cs (initTailState c0)).1.lineBuffer = partTail := by
  have hsplit := splitParts_joinRecords records partTail
    (fun r hr => (hrec r hr).1) hpt
  have hcl : completeLines (joinRecords records ++ partTail) = records := by
    rw [completeLines, hsplit]
  have hplt : partialLine (joinRecords records ++ partTail) = partTail := by
    rw [partialLine, hsplit]
  have hinit : initTailState c0 = ⟨(c0 ++ []).length, partialLine []⟩ := by
    simp [initTailState, partialLine, splitParts]
  have hinv := runPolls_invariant cs c0 [] (joinRecords records ++ partTail)
    (by simpa using hchain) (by simpa using hlast)
  rw [hinit]
  have hdel : deliverOf records = records.filterMap jsonParse :=
    deliverOf_parseable records (fun r hr => (hrec r hr).2.1)
  refine ⟨?_, ?_, ?_⟩
  · have h2 := hinv.2
    rw [hcl, hdel] at h2
    rw [show completeLines ([] : Str) = [] from rfl] at h2
    rw [show deliverOf ([] : List Str) = [] from rfl] at h2
    simpa using h2
  · have h2 := hinv.2
    rw [hcl, hdel] at h2
    rw [show completeLines ([] : Str) = [] from rfl] at h2
    rw [show deliverOf ([] : List Str) = [] from rfl] at h2
    simp only [List.nil_append] at h2
    rw [h2]
    exact filterMap_length_of_isSome jsonParse records (fun r hr => (hrec r hr).2.2)
  · have h1 := hinv.1
    rw [hplt] at h1
    rw [h1]

/-- Witness for C4: one record `{}` appended and observed by one poll. -/
theorem tailLog_delivery_witness :
    (runPolls [str "{}" ++ ['\n']] (initTailState [])).2
        = ([str "{}"] : List Str).filterMap jsonParse
    ∧ (runPolls [str "{}" ++ ['\n']] (initTailState [])).2.length = 1
    ∧ (runPolls [str "{}" ++ ['\n']] (initTailState [])).1.lineBuffer = [] := by
  have h := tailLog_delivery [] [] [str "{}"] [str "{}" ++ ['\n']]
    (List.chain'_cons.mpr ⟨List.nil_prefix, List.chain'_singleton _⟩) (by decide)
    (by intro r hr; rw [List.mem_singleton.mp hr]; exact ⟨by decide, by decide, by decide⟩)
    (by decide)
  exact ⟨h.1, h.2.1.trans rfl, h.2.2⟩

/-! ### C2: round-trip of `parseAcceptanceCriteria` /
`applyAcceptanceCriteriaToIssueBody` -/

/-- A body line in exactly the form the renderer itself produces:
`- [x] t` or `- [ ] t` with `t` non-empty and equal to its own trim. -/
def canonicalItemLine (it : Str) : Bool :=
  (isPref (str "- [x] ") it || isPref (str "- [ ] ") it) &&
  decide (it.drop 6 ≠ []) && decide (jsTrim (it.drop 6) = it.drop 6)

/-- The lines after the criteria section: either the body ends there, or
the next line is a heading that terminates the section scan. -/
def afterLinesOk : List Str → Bool
  | [] => true
  | a :: _ => isHeadingLine a && !isSectionHeaderLine (jsTrim a)

/-- The criterion parsed from a checked canonical checkbox line. -/
def checkedItemCriterion (t : Str) : AcceptanceCriterion :=
  { text := t, completed := true, completedBy := some CompletedBy.operator, completedAt := none }

/-- The criterion parsed from an unchecked canonical checkbox line. -/
def uncheckedItemCriterion (t : Str) : AcceptanceCriterion :=
  { text := t, completed := false, completedBy := none, completedAt := none }

/-- The criterion `parseAcceptanceCriteria` extracts from a canonical
checkbox line. -/
def canonicalItemCriterion (it : Str) : AcceptanceCriterion :=
  { text := it.drop 6,
    completed := isPref (str "- [x] ") it,
    completedBy := if isPref (str "- [x] ") it then some CompletedBy.operator else none,
    completedAt := none }

theorem isPref_eq_append : ∀ (p s : Str), isPref p s = true → s = p ++ s.drop p.length
  | [], s, _ => by simp
  | p :: ps, [], h => by simp [isPref] at h
  | p :: ps, c :: cs, h => by
    have h2 := h
    unfold isPref at h2
    simp only [Bool.and_eq_true, decide_eq_true_eq] at h2
    obtain ⟨h3, h4⟩ := h2
    subst h3
    simp only [List.length_cons, List.drop_succ_cons, List.cons_append]
    exact congrArg (List.cons c) (isPref_eq_append ps cs h4)

theorem jsTrim_cons_ws (c : Char) (t : Str) (h : wsChar c = true) :
    jsTrim (c :: t) = jsTrim t := by
  unfold jsTrim
  rw [List.dropWhile_cons, if_pos h]

theorem canonicalItem_checked (t : Str) (ht : jsTrim t = t) :
    checkboxCriterion (str "- [x] " ++ t) = some (checkedItemCriterion t) := by
  have h1 : checkboxCriterion (str "- [x] " ++ t)
      = some (checkedItemCriterion (jsTrim (' ' :: t))) := rfl
  rw [h1, jsTrim_cons_ws ' ' t (by decide), ht]

theorem canonicalItem_unchecked (t : Str) (ht : jsTrim t = t) :
    checkboxCriterion (str "- [ ] " ++ t) = some (uncheckedItemCriterion t) := by
  have h1 : checkboxCriterion (str "- [ ] " ++ t)
      = some (uncheckedItemCriterion (jsTrim (' ' :: t))) := rfl
  rw [h1, jsTrim_cons_ws ' ' t (by decide), ht]

theorem canonicalItem_facts (it : Str) (h : canonicalItemLine it = true) :
    checkboxCriterion it = some (canonicalItemCriterion it)
    ∧ renderCriterionLine (canonicalItemCriterion it) = it
    ∧ isHeadingLine it = false := by
  have h2 := h
  unfold canonicalItemLine at h2
  simp only [Bool.and_eq_true, Bool.or_eq_true, decide_eq_true_eq] at h2
  obtain ⟨⟨hpre, hne⟩, htr⟩ := h2
  rcases hpre with hx | ho
  · have hit : it = str "- [x] " ++ it.drop 6 := by
      have h3 := isPref_eq_append (str "- [x] ") it hx
      rwa [show (str "- [x] ").length = 6 from rfl] at h3
    have hcrit : canonicalItemCriterion it = checkedItemCriterion (it.drop 6) := by
      unfold canonicalItemCriterion checkedItemCriterion
      rw [hx]
      simp
    refine ⟨?_, ?_, ?_⟩
    · rw [hcrit]
      conv_lhs => rw [hit]
      exact canonicalItem_checked (it.drop 6) htr
    · rw [hcrit]
      rw [show renderCriterionLine (checkedItemCriterion (it.drop 6))
          = str "- [x] " ++ it.drop 6 from rfl]
      exact hit.symm
    · conv_lhs => rw [hit]
      rfl
  · have hit : it = str "- [ ] " ++ it.drop 6 := by
      have h3 := isPref_eq_append (str "- [ ] ") it ho
      rwa [show (str "- [ ] ").length = 6 from rfl] at h3
    have hxf : isPref (str "- [x] ") it = false := by
      conv_lhs => rw [hit]
      rfl
    have hcrit : canonicalItemCriterion it = uncheckedItemCriterion (it.drop 6) := by
      unfold canonicalItemCriterion uncheckedItemCriterion
      rw [hxf]
      simp
    refine ⟨?_, ?_, ?_⟩
    · rw [hcrit]
      conv_lhs => rw [hit]
      exact canonicalItem_unchecked (it.drop 6) htr
    · rw [hcrit]
      rw [show renderCriterionLine (uncheckedItemCriterion (it.drop 6))
          = str "- [ ] " ++ it.drop 6 from rfl]
      exact hit.symm
    · conv_lhs => rw [hit]
      rfl

theorem parsePre_skip :
    ∀ (before rest : List Str),
      (∀ l ∈ before, isSectionHeaderLine (jsTrim l) = false) →
      parsePre (before ++ rest) = parsePre rest
  | [], _, _ => rfl
  | l :: ls, rest, h => by
    rw [List.cons_append]
    conv_lhs => unfold parsePre
    rw [if_neg (by simp [h l (List.mem_cons_self l ls)])]
    exact parsePre_skip ls rest (fun x hx => h x (List.mem_cons_of_mem l hx))

theorem findStart_pos :
    ∀ (before : List Str) (hdr : Str) (rest : List Str),
      (∀ l ∈ before, isSectionHeaderLine (jsTrim l) = false) →
      isSectionHeaderLine (jsTrim hdr) = true →
      findStart (before ++ hdr :: rest) = some before.length
  | [], hdr, rest, _, hh => by
    simp [findStart, hh]
  | l :: ls, hdr, rest, h, hh => by
    rw [List.cons_append]
    unfold findStart
    rw [if_neg (by simp [h l (List.mem_cons_self l ls)])]
    rw [findStart_pos ls hdr rest (fun x hx => h x (List.mem_cons_of_mem l hx)) hh]
    simp

theorem parseIn_canonical :
    ∀ (items after : List Str),
      (∀ it ∈ items, canonicalItemLine it = true) →
      afterLinesOk after = true →
      parseIn (items ++ after) = items.map canonicalItemCriterion
  | [], after, _, hafter => by
    cases after with
    | nil => rfl
    | cons a as =>
      have h1 : isHeadingLine a = true ∧ isSectionHeaderLine (jsTrim a) = false := by
        have h := hafter
        unfold afterLinesOk at h
        simpa using h
      rw [List.nil_append, List.map_nil]
      unfold parseIn
      rw [if_pos (by simp [h1.1, h1.2])]
  | it :: its, after, hitems, hafter => by
    have hf := canonicalItem_facts it (hitems it (List.mem_cons_self it its))
    rw [List.cons_append, List.map_cons]
    unfold parseIn
    rw [if_neg (by simp [hf.2.2])]
    simp only [hf.1]
    rw [parseIn_canonical its after (fun x hx => hitems x (List.mem_cons_of_mem it hx)) hafter]

theorem endOffset_canonical :
    ∀ (items after : List Str),
      (∀ it ∈ items, canonicalItemLine it = true) →
      afterLinesOk after = true →
      endOffset (items ++ after) = items.length
  | [], after, _, hafter => by
    cases after with
    | nil => rfl
    | cons a as =>
      have h1 : isHeadingLine a = true ∧ isSectionHeaderLine (jsTrim a) = false := by
        have h := hafter
        unfold afterLinesOk at h
        simpa using h
      rw [List.nil_append]
      unfold endOffset
      rw [if_pos (by simp [h1.1, h1.2])]
      rfl
  | it :: its, after, hitems, hafter => by
    have hf := canonicalItem_facts it (hitems it (List.mem_cons_self it its))
    rw [List.cons_append]
    unfold endOffset
    rw [if_neg (by simp [hf.2.2])]
    rw [endOffset_canonical its after (fun x hx => hitems x (List.mem_cons_of_mem it hx)) hafter]
    rw [List.length_cons]
    omega

theorem map_render_canonical :
    ∀ (items : List Str), (∀ it ∈ items, canonicalItemLine it = true) →
      items.map (fun it => renderCriterionLine (canonicalItemCriterion it)) = items
  | [], _ => rfl
  | it :: its, h => by
    rw [List.map_cons]
    rw [(canonicalItem_facts it (h it (List.mem_cons_self it its))).2.1]
    rw [map_render_canonical its (fun x hx => h x (List.mem_cons_of_mem it hx))]

theorem hasTriple_tail (a b c : Char) (rest : Str)
    (h : hasTriple (a :: b :: c :: rest) = false) :
    hasTriple (b :: c :: rest) = false ∧ (a = '\n' && b = '\n' && c = '\n') = false := by
  have h2 := h
  unfold hasTriple at h2
  exact ⟨(Bool.or_eq_false_iff.mp h2).2, (Bool.or_eq_false_iff.mp h2).1⟩

theorem collapseNl_id : ∀ (s : Str), hasTriple s = false → collapseNl s = s
  | [], _ => rfl
  | [_], _ => rfl
  | [_, _], _ => rfl
  | a :: b :: c :: rest, h => by
    have hh := hasTriple_tail a b c rest h
    unfold collapseNl
    rw [if_neg (by simp [hh.2])]
    rw [collapseNl_id (b :: c :: rest) hh.1]

theorem take_len_append {α : Type} (l₁ l₂ : List α) : (l₁ ++ l₂).take l₁.length = l₁ := by
  induction l₁ with
  | nil => rfl
  | cons a l ih => simp [ih]

theorem drop_len_append {α : Type} (l₁ l₂ : List α) : (l₁ ++ l₂).drop l₁.length = l₂ := by
  induction l₁ with
  | nil => rfl
  | cons a l ih => simp [ih]

theorem applyBody_canonical (body : Str) (before items after : List Str)
    (hsplit : splitNl body = before ++ (str "## Acceptance Criteria") :: (items ++ after))
    (hbefore : ∀ l ∈ before, isSectionHeaderLine (jsTrim l) = false)
    (hitems : ∀ it ∈ items, canonicalItemLine it = true)
    (hafter : afterLinesOk after = true)
    (htriple : hasTriple body = false) :
    applyAcceptanceCriteriaToIssueBody body (items.map canonicalItemCriterion) = body := by
  have hH : isSectionHeaderLine (jsTrim (str "## Acceptance Criteria")) = true := by decide
  have hrender : renderAcceptanceCriteriaSection (items.map canonicalItemCriterion)
      = str "## Acceptance Criteria" :: items := by
    unfold renderAcceptanceCriteriaSection
    rw [List.map_map]
    exact congrArg (List.cons (str "## Acceptance Criteria")) (map_render_canonical items hitems)
  simp only [applyAcceptanceCriteriaToIssueBody]
  simp only [hsplit,
    findStart_pos before (str "## Acceptance Criteria") (items ++ after) hbefore hH]
  have hdrop1 : (before ++ (str "## Acceptance Criteria") :: (items ++ after)).drop
      (before.length + 1) = items ++ after := by
    rw [show before ++ (str "## Acceptance Criteria") :: (items ++ after)
        = (before ++ [str "## Acceptance Criteria"]) ++ (items ++ after) from by simp]
    rw [show before.length + 1 = (before ++ [str "## Acceptance Criteria"]).length from by simp]
    exact drop_len_append _ _
  rw [hdrop1, endOffset_canonical items after hitems hafter]
  have htake : (before ++ (str "## Acceptance Criteria") :: (items ++ after)).take
      before.length = before := take_len_append before _
  have hdrop2 : (before ++ (str "## Acceptance Criteria") :: (items ++ after)).drop
      (before.length + 1 + items.length) = after := by
    rw [show before ++ (str "## Acceptance Criteria") :: (items ++ after)
        = (before ++ (str "## Acceptance Criteria") :: items) ++ after from by simp]
    rw [show before.length + 1 + items.length
        = (before ++ (str "## Acceptance Criteria") :: items).length from by
      simp only [List.length_append, List.length_cons]
      omega]
    exact drop_len_append _ _
  rw [htake, hdrop2, hrender]
  have hjoin : (before ++ (str "## Acceptance Criteria") :: items) ++ after
      = splitNl body := by
    rw [hsplit]
    simp
  rw [hjoin, joinNl_splitNl, collapseNl_id body htriple]

/-- C2 (amended): when the body's criteria section is already in the
renderer's own canonical form — the exact header line
`## Acceptance Criteria`, followed by a non-empty run of canonical
checkbox lines `- [x] t` / `- [ ] t` (each `t` non-empty and equal to
its trim), followed by the end of the body or by a heading that
terminates the section, with no earlier line matching a section header
and no run of three newlines anywhere — the round trip
`applyAcceptanceCriteriaToIssueBody(body, parseAcceptanceCriteria(body))`
returns the body unchanged (not merely up to whitespace). -/
theorem applyCriteria_roundtrip_amended (body : Str) (before items after : List Str)
    (hsplit : splitNl body = before ++ (str "## Acceptance Criteria") :: (items ++ after))
    (hbefore : ∀ l ∈ before, isSectionHeaderLine (jsTrim l) = false)
    (hne : items ≠ [])
    (hitems : ∀ it ∈ items, canonicalItemLine it = true)
    (hafter : afterLinesOk after = true)
    (htriple : hasTriple body = false) :
    applyAcceptanceCriteriaToIssueBody body (parseAcceptanceCriteria body) = body := by
  have hH : isSectionHeaderLine (jsTrim (str "## Acceptance Criteria")) = true := by decide
  have hparse : parseAcceptanceCriteria body = items.map canonicalItemCriterion := by
    simp only [parseAcceptanceCriteria]
    rw [hsplit, parsePre_skip before _ hbefore]
    unfold parsePre
    rw [if_pos hH]
    rw [parseIn_canonical items after hitems hafter]
    rw [if_neg (by simp [hne])]
  rw [hparse]
  exact applyBody_canonical body before items after hsplit hbefore hitems hafter htriple

/-- Witness for the amended C2 round trip on a concrete canonical body. -/
theorem applyCriteria_roundtrip_amended_witness :
    applyAcceptanceCriteriaToIssueBody
        (str "Intro\n\n## Acceptance Criteria\n- [x] Done\n- [ ] Rest")
        (parseAcceptanceCriteria
          (str "Intro\n\n## Acceptance Criteria\n- [x] Done\n- [ ] Rest"))
      = str "Intro\n\n## Acceptance Criteria\n- [x] Done\n- [ ] Rest" :=
  applyCriteria_roundtrip_amended
    (str "Intro\n\n## Acceptance Criteria\n- [x] Done\n- [ ] Rest")
    [str "Intro", []] [str "- [x] Done", str "- [ ] Rest"] []
    (by decide) (by decide) (by decide) (by decide) (by decide) (by decide)

/-- C2 (counterexample): the claimed round trip fails even up to
whitespace normalization for a body whose recognised section header is
`### Done When`: `applyAcceptanceCriteriaToIssueBody` rewrites the
header line to `## Acceptance Criteria`, changing non-whitespace
characters of the body. -/
theorem applyCriteria_roundtrip_cex :
    applyAcceptanceCriteriaToIssueBody (str "### Done When\n- [ ] A")
        (parseAcceptanceCriteria (str "### Done When\n- [ ] A"))
      = str "## Acceptance Criteria\n- [ ] A"
    ∧ stripWs (applyAcceptanceCriteriaToIssueBody (str "### Done When\n- [ ] A")
        (parseAcceptanceCriteria (str "### Done When\n- [ ] A")))
      ≠ stripWs (str "### Done When\n- [ ] A") := by
  constructor <;> decide
